import Mathlib

/-!
Verification of the trench-coat provisioning tool (warped-pinball/trench-coat)
against its natural-language specification.

The development shallowly embeds the relevant Python code as executable Lean
definitions.  Python byte strings and text strings are both modelled as
`List Nat` (byte values, respectively Unicode code points); machine words in
the SHA-256 model are `Nat` reduced `% 2^32` where overflow matters.  Fallible
Python code (code that can raise) is modelled with `Except String` / `Option`.
-/

namespace TrenchCoat

/-- Byte strings and code-point strings are lists of naturals. -/
abbrev Bytes := List Nat

/-- Decidable equality for modelled fallible results. -/
instance {ε α : Type} [DecidableEq ε] [DecidableEq α] :
    DecidableEq (Except ε α) := fun x y =>
  match x, y with
  | .ok a, .ok b =>
    if h : a = b then isTrue (by rw [h])
    else isFalse (fun hh => h (Except.ok.inj hh))
  | .error a, .error b =>
    if h : a = b then isTrue (by rw [h])
    else isFalse (fun hh => h (Except.error.inj hh))
  | .ok _, .error _ => isFalse (fun hh => Except.noConfusion hh)
  | .error _, .ok _ => isFalse (fun hh => Except.noConfusion hh)

/-- Convert a Lean string literal (ASCII content) to its byte/code-point list.
Used only to transcribe string literals appearing in the Python source. -/
def sb (s : String) : Bytes := s.data.map Char.toNat

/-- The ASCII apostrophe byte, used when assembling generated script lines. -/
def sq : Bytes := [39]

/-! ## Python `strip` models -/

/-- Whitespace bytes stripped by Python `bytes.strip()`:
`\t \n \x0b \x0c \r` and space. -/
def isAsciiWs (b : Nat) : Bool :=
  b == 9 || b == 10 || b == 11 || b == 12 || b == 13 || b == 32

/-- Code points for which Python `str.strip()` strips (characters with
`str.isspace() = True`): ASCII whitespace, `\x1c`-`\x1f`, `\x85`, `\xa0`,
and the Unicode space separators. -/
def isUniWs (c : Nat) : Bool :=
  isAsciiWs c || c == 28 || c == 29 || c == 30 || c == 31 || c == 133 ||
  c == 160 || c == 5760 || (8192 ≤ c && c ≤ 8202) || c == 8232 ||
  c == 8233 || c == 8239 || c == 8287 || c == 12288

/-- Remove elements satisfying `p` from the end of a list. -/
def rstripP (p : Nat → Bool) (l : Bytes) : Bytes :=
  (l.reverse.dropWhile p).reverse

/-- Remove elements satisfying `p` from both ends of a list
(Python `strip()`). -/
def stripP (p : Nat → Bool) (l : Bytes) : Bytes :=
  rstripP p (l.dropWhile p)

/-- Python `bytes.strip()`. -/
def stripBytes (l : Bytes) : Bytes := stripP isAsciiWs l

/-- Python `str.strip()` on code points. -/
def stripUni (l : Bytes) : Bytes := stripP isUniWs l

/-! ## Splitting into lines

Python `f.readlines()` on a binary file splits after every `\n` (byte `0x0a`),
keeping the terminators. -/

/-- Split a byte list after every `0x0a`, keeping the terminators. -/
def splitLinesKeep : Bytes → List Bytes
  | [] => []
  | b :: rest =>
    match splitLinesKeep rest with
    | [] => [[b]]
    | l :: ls => if b == 10 then [b] :: l :: ls else (b :: l) :: ls

/-! ## SHA-256

Executable model of SHA-256 (FIPS 180-4) over byte lists, as computed by
Python `hashlib.sha256`.  32-bit words are naturals reduced `% 2^32`. -/

/-- Reduce a natural to a 32-bit word. -/
def u32 (n : Nat) : Nat := n % 4294967296

/-- Rotate a 32-bit word right by `n` bits. -/
def rotr (n w : Nat) : Nat := u32 ((w >>> n) ||| (w <<< (32 - n)))

/-- The SHA-256 round constants (FIPS 180-4), written in decimal. -/
def shaK : List Nat :=
  [1116352408, 1899447441, 3049323471, 3921009573, 961987163,
   1508970993, 2453635748, 2870763221, 3624381080, 310598401,
   607225278, 1426881987, 1925078388, 2162078206, 2614888103,
   3248222580, 3835390401, 4022224774, 264347078, 604807628,
   770255983, 1249150122, 1555081692, 1996064986, 2554220882,
   2821834349, 2952996808, 3210313671, 3336571891, 3584528711,
   113926993, 338241895, 666307205, 773529912, 1294757372,
   1396182291, 1695183700, 1986661051, 2177026350, 2456956037,
   2730485921, 2820302411, 3259730800, 3345764771, 3516065817,
   3600352804, 4094571909, 275423344, 430227734, 506948616,
   659060556, 883997877, 958139571, 1322822218, 1537002063,
   1747873779, 1955562222, 2024104815, 2227730452, 2361852424,
   2428436474, 2756734187, 3204031479, 3329325298]

/-- The SHA-256 initial hash state (FIPS 180-4), written in decimal. -/
def shaH0 : List Nat :=
  [1779033703, 3144134277, 1013904242, 2773480762,
   1359893119, 2600822924, 528734635, 1541459225]

/-- Big-endian bytes of `n`, `k` bytes wide (most significant first). -/
def beBytes : Nat → Nat → Bytes
  | 0, _ => []
  | k + 1, n => beBytes k (n / 256) ++ [n % 256]

/-- SHA-256 message padding: append `0x80`, zero bytes to 56 mod 64, then the
bit length as 8 big-endian bytes. -/
def shaPad (m : Bytes) : Bytes :=
  m ++ 128 :: List.replicate ((119 - m.length % 64) % 64) 0 ++
    beBytes 8 (m.length * 8)

/-- Group a byte list into big-endian 32-bit words (length assumed `% 4 = 0`). -/
def toWordsBE : Bytes → List Nat
  | a :: b :: c :: d :: rest =>
      (a * 16777216 + b * 65536 + c * 256 + d) :: toWordsBE rest
  | _ => []

/-- Fuelled worker for `groupsOf` (structural in the fuel, which the wrapper
sets to the list length — always sufficient since every step consumes at
least one element). -/
def groupsOfGo (n : Nat) : Nat → List α → List (List α)
  | _, [] => []
  | 0, _ :: _ => []
  | fuel + 1, a :: rest =>
    match n with
    | 0 => []
    | m + 1 => (a :: rest.take m) :: groupsOfGo n fuel (rest.drop m)

/-- Split a list into consecutive groups of `n` elements (`n > 0`). -/
def groupsOf (n : Nat) (l : List α) : List (List α) :=
  groupsOfGo n l.length l

/-- Append `fuel` more SHA-256 schedule words to `w`. -/
def shaScheduleGo : Nat → List Nat → List Nat
  | 0, w => w
  | fuel + 1, w =>
    let n := w.length
    let w15 := w.getD (n - 15) 0
    let w2 := w.getD (n - 2) 0
    let s0 := (rotr 7 w15) ^^^ (rotr 18 w15) ^^^ (w15 >>> 3)
    let s1 := (rotr 17 w2) ^^^ (rotr 19 w2) ^^^ (w2 >>> 10)
    shaScheduleGo fuel (w ++ [u32 (w.getD (n - 16) 0 + s0 + w.getD (n - 7) 0 + s1)])

/-- Extend the 16 message words of one block to the 64-word schedule. -/
def shaSchedule (w : List Nat) : List Nat :=
  shaScheduleGo 48 w

/-- One SHA-256 round: update state `[a,b,c,d,e,f,g,h]` with constant `k` and
schedule word `w`. -/
def shaRound (st : List Nat) (kw : Nat × Nat) : List Nat :=
  match st with
  | [a, b, c, d, e, f, g, h] =>
    let s1 := (rotr 6 e) ^^^ (rotr 11 e) ^^^ (rotr 25 e)
    let ch := (e &&& f) ^^^ ((4294967295 - e) &&& g)
    let t1 := u32 (h + s1 + ch + kw.1 + kw.2)
    let s0 := (rotr 2 a) ^^^ (rotr 13 a) ^^^ (rotr 22 a)
    let mj := (a &&& b) ^^^ (a &&& c) ^^^ (b &&& c)
    let t2 := u32 (s0 + mj)
    [u32 (t1 + t2), a, b, c, u32 (d + t1), e, f, g]
  | other => other

/-- Compress one 64-byte block into the hash state. -/
def shaCompress (h : List Nat) (block : Bytes) : List Nat :=
  let ws := shaSchedule (toWordsBE block)
  let st := (shaK.zip ws).foldl shaRound h
  (h.zip st).map fun p => u32 (p.1 + p.2)

/-- SHA-256 digest (32 bytes) of a byte list. -/
def sha256 (m : Bytes) : Bytes :=
  ((groupsOf 64 (shaPad m)).foldl shaCompress shaH0).flatMap (beBytes 4)

/-- Lowercase hex digit for a value `< 16`. -/
def hexDigit (n : Nat) : Nat := if n < 10 then 48 + n else 87 + n

/-- Lowercase hex encoding of a byte list (Python `hexdigest()`,
`binascii.hexlify`). -/
def hexBytes (l : Bytes) : Bytes :=
  l.flatMap fun b => [hexDigit (b / 16), hexDigit (b % 16)]

/-! ## UTF-8 -/

/-- UTF-8 encoding of one code point (Python `str.encode("utf-8")`). -/
def utf8EncodeChar (c : Nat) : Bytes :=
  if c < 128 then [c]
  else if c < 2048 then [192 + c / 64, 128 + c % 64]
  else if c < 65536 then [224 + c / 4096, 128 + (c / 64) % 64, 128 + c % 64]
  else [240 + c / 262144, 128 + (c / 4096) % 64, 128 + (c / 64) % 64,
        128 + c % 64]

/-- UTF-8 encoding of a code-point list. -/
def utf8Encode (l : Bytes) : Bytes := l.flatMap utf8EncodeChar

/-- Fuelled worker for strict UTF-8 decoding. -/
def utf8DecodeGo : Nat → Bytes → Option Bytes
  | _, [] => some []
  | 0, _ :: _ => none
  | fuel + 1, b :: rest =>
    if b < 128 then (utf8DecodeGo fuel rest).map (b :: ·)
    else if 194 ≤ b && b ≤ 223 then
      match rest with
      | c :: rest2 =>
        if 128 ≤ c && c ≤ 191 then
          (utf8DecodeGo fuel rest2).map (((b - 192) * 64 + (c - 128)) :: ·)
        else none
      | [] => none
    else if 224 ≤ b && b ≤ 239 then
      match rest with
      | c :: d :: rest2 =>
        let lo := if b == 224 then 160 else 128
        let hi := if b == 237 then 159 else 191
        if lo ≤ c && c ≤ hi && 128 ≤ d && d ≤ 191 then
          (utf8DecodeGo fuel rest2).map
            (((b - 224) * 4096 + (c - 128) * 64 + (d - 128)) :: ·)
        else none
      | _ => none
    else if 240 ≤ b && b ≤ 244 then
      match rest with
      | c :: d :: e :: rest2 =>
        let lo := if b == 240 then 144 else 128
        let hi := if b == 244 then 143 else 191
        if lo ≤ c && c ≤ hi && 128 ≤ d && d ≤ 191 && 128 ≤ e && e ≤ 191 then
          (utf8DecodeGo fuel rest2).map
            (((b - 240) * 262144 + (c - 128) * 4096 + (d - 128) * 64 +
              (e - 128)) :: ·)
        else none
      | _ => none
    else none

/-- Strict UTF-8 decoding of a byte list to code points (Python
`bytes.decode("utf-8")`); `none` models `UnicodeDecodeError`.  Fuelled
worker above (structural in the fuel; the wrapper passes the byte count,
always sufficient since every step consumes at least one byte). -/
def utf8Decode (l : Bytes) : Option Bytes := utf8DecodeGo l.length l

/-- One-pass worker for universal-newline translation; the flag records
whether the previous byte was a carriage return (whose following `\n`
partner is dropped). -/
def unlGo : Bool → Bytes → Bytes
  | _, [] => []
  | prevCr, c :: rest =>
    if c = 13 then 10 :: unlGo true rest
    else if c = 10 then
      (if prevCr then unlGo false rest else 10 :: unlGo false rest)
    else c :: unlGo false rest

/-- Universal-newline translation performed by Python text-mode reads:
`\r\n` and lone `\r` both become `\n`. -/
def unlTranslate (l : Bytes) : Bytes := unlGo false l

/-- Python text-mode `f.read(n)`: for negative `n` the whole stream, else the
first `n` characters. -/
def pyReadN (n : Int) (text : Bytes) : Bytes :=
  if n < 0 then text else text.take n.toNat

/-! ## Hex and base64 decoding -/

/-- Value of one hex digit character. -/
def hexVal (c : Nat) : Option Nat :=
  if 48 ≤ c && c ≤ 57 then some (c - 48)
  else if 97 ≤ c && c ≤ 102 then some (c - 87)
  else if 65 ≤ c && c ≤ 70 then some (c - 55)
  else none

/-- Python `binascii.unhexlify`: pairs of hex digits to bytes; odd length or a
non-hex character raises (`none`). -/
def unhexlify : Bytes → Option Bytes
  | [] => some []
  | [_] => none
  | a :: b :: rest => do
    let x ← hexVal a
    let y ← hexVal b
    let r ← unhexlify rest
    pure ((x * 16 + y) :: r)

/-- Value of one base64 alphabet character. -/
def b64Val (c : Nat) : Option Nat :=
  if 65 ≤ c && c ≤ 90 then some (c - 65)
  else if 97 ≤ c && c ≤ 122 then some (c - 71)
  else if 48 ≤ c && c ≤ 57 then some (c + 4)
  else if c == 43 then some 62
  else if c == 47 then some 63
  else none

/-- Collect base64 digit values, skipping characters outside the alphabet and
stopping at the first `=` padding character. -/
def b64Digits : Bytes → List Nat
  | [] => []
  | c :: rest =>
    if c == 61 then []
    else match b64Val c with
      | some v => v :: b64Digits rest
      | none => b64Digits rest

/-- Reassemble 6-bit base64 digit values into bytes; a single leftover digit
raises (`binascii.Error: Invalid padding`, modelled as `none`). -/
def b64Groups : List Nat → Option Bytes
  | [] => some []
  | [_] => none
  | [a, b] => some [a * 4 + b / 16]
  | [a, b, c] => some [a * 4 + b / 16, (b % 16) * 16 + c / 4]
  | a :: b :: c :: d :: rest =>
    (b64Groups rest).map
      (fun r => (a * 4 + b / 16) :: ((b % 16) * 16 + c / 4) ::
        ((c % 4) * 64 + d) :: r)

/-- Base64 decoding as performed by `binascii.a2b_base64` /
`base64.b64decode` on the inputs this tool handles: characters outside the
alphabet are discarded, decoding stops at `=`, and a leftover single digit
raises (`none`). -/
def a2bBase64 (s : Bytes) : Option Bytes := b64Groups (b64Digits s)

/-! ## A small JSON model

Model of `json.loads` on the flat values occurring in update bundles: a
scalar (string without escape sequences, boolean, null, integer), or an
object with string keys and scalar values.  Inputs outside this fragment
make the model fail (`none`), as does malformed JSON in Python. -/

/-- Scalar JSON values in the modelled fragment. -/
inductive JScalar where
  /-- A JSON string. -/
  | jstr (s : Bytes)
  /-- A JSON boolean. -/
  | jbool (b : Bool)
  /-- JSON `null`. -/
  | jnull
  /-- A JSON integer. -/
  | jnum (n : Int)
deriving DecidableEq, Repr

/-- JSON values in the modelled fragment. -/
inductive JVal where
  /-- A scalar at top level. -/
  | scalar (s : JScalar)
  /-- A flat JSON object (field list in textual order). -/
  | jobj (fields : List (Bytes × JScalar))
deriving DecidableEq, Repr

/-- Skip JSON whitespace. -/
def jskipWs (l : Bytes) : Bytes :=
  l.dropWhile fun c => c == 32 || c == 9 || c == 10 || c == 13

/-- Parse a JSON string body after the opening quote; returns the content and
the remainder after the closing quote.  Escape sequences are outside the
modelled fragment. -/
def jparseStr : Bytes → Option (Bytes × Bytes)
  | [] => none
  | c :: rest =>
    if c == 34 then some ([], rest)
    else if c == 92 then none
    else (jparseStr rest).map fun p => (c :: p.1, p.2)

/-- Decimal digit test. -/
def isDigitB (c : Nat) : Bool := 48 ≤ c && c ≤ 57

/-- Value of a non-empty digit string. -/
def digitsVal (l : Bytes) : Nat := l.foldl (fun a c => a * 10 + (c - 48)) 0

/-- Parse one scalar JSON value. -/
def jparseScalar (l : Bytes) : Option (JScalar × Bytes) :=
  match jskipWs l with
  | [] => none
  | 34 :: rest => (jparseStr rest).map fun p => (JScalar.jstr p.1, p.2)
  | c :: rest =>
    let l2 := c :: rest
    if l2.take 4 = sb "true" then some (JScalar.jbool true, l2.drop 4)
    else if l2.take 5 = sb "false" then some (JScalar.jbool false, l2.drop 5)
    else if l2.take 4 = sb "null" then some (JScalar.jnull, l2.drop 4)
    else if c == 45 then
      let ds := rest.takeWhile isDigitB
      if ds = [] then none
      else some (JScalar.jnum (-(digitsVal ds : Int)), rest.drop ds.length)
    else if isDigitB c then
      let ds := l2.takeWhile isDigitB
      some (JScalar.jnum (digitsVal ds : Int), l2.drop ds.length)
    else none

/-- Parse the members of a JSON object after `{` (or after a `,`),
fuelled by the remaining input length. -/
def jparseMembers : Nat → Bytes → Option (List (Bytes × JScalar) × Bytes)
  | 0, _ => none
  | fuel + 1, l =>
    match jskipWs l with
    | 34 :: rest => do
      let (k, rest2) ← jparseStr rest
      match jskipWs rest2 with
      | 58 :: rest3 => do
        let (v, rest4) ← jparseScalar rest3
        match jskipWs rest4 with
        | 44 :: rest5 =>
          (jparseMembers fuel rest5).map fun p => ((k, v) :: p.1, p.2)
        | 125 :: rest5 => some ([(k, v)], rest5)
        | _ => none
      | _ => none
    | _ => none

/-- Parse one JSON value of the modelled fragment. -/
def jparseVal (l : Bytes) : Option (JVal × Bytes) :=
  match jskipWs l with
  | [] => none
  | 123 :: rest =>
    match jskipWs rest with
    | 125 :: rest2 => some (JVal.jobj [], rest2)
    | _ => (jparseMembers (rest.length + 1) rest).map
        fun p => (JVal.jobj p.1, p.2)
  | l2 => (jparseScalar l2).map fun p => (JVal.scalar p.1, p.2)

/-- Model of `json.loads` on the supported fragment: parse one value and
require only whitespace to remain. -/
def jsonLoads (l : Bytes) : Option JVal := do
  let (v, rest) ← jparseVal l
  if jskipWs rest = [] then some v else none

/-- Python `dict.get` on a parsed JSON object: with duplicate keys,
`json.loads` keeps the last occurrence. -/
def jGet (fields : List (Bytes × JScalar)) (k : Bytes) : Option JScalar :=
  fields.foldl (fun acc p => if p.1 = k then some p.2 else acc) none

/-! ## Substring search (Python `in` on strings) -/

/-- Whether `pat` occurs at the start of `l`. -/
def startsSeq : Bytes → Bytes → Bool
  | [], _ => true
  | _ :: _, [] => false
  | a :: ps, b :: l => a == b && startsSeq ps l

/-- Whether `pat` occurs as a contiguous subsequence of `l`
(Python `pat in l`). -/
def containsSeq (pat : Bytes) : Bytes → Bool
  | [] => pat.isEmpty
  | b :: rest => startsSeq pat (b :: rest) || containsSeq pat rest

/-! ## RSA signature verification (the `rsa` library)

Model of `rsa.verify(message, signature, pub_key)` for the tool's embedded
RSA-2048 public key, specialized to the SHA-256 hash method (the library
detects the hash method from an ASN.1 prefix in the decrypted signature; only
the SHA-256 branch is modelled, so signatures produced with any other hash
method verify as `false` here — which can only be fail-closed for this
tool).  The Boolean result models the `try/except` wrapper in
`validate_update_file`: `false` stands for any `rsa.VerificationError`. -/

/-- The embedded RSA-2048 modulus from `interactive.py`. -/
def rsaN : Nat := 25850530073502007505073398889935110756716032251132404339199218781380059422255360862345198138544675141546256513054332184373517438166092251410172963421556299077069195099284810366900994760048877561951388981897823462231871242380041390062269561386306787290618184745309059687916294069920586099425145107624115989895718851520436900326103985313232359151478484869518361685407610217568258949817227423076176730822354946128428713951948845035016003414197978601744938802692314180897355778380777214605494482082206918793349659727959426652897923672356221305760483911989683767700269466619761018439625757662776289786038860327614755771099

/-- The embedded RSA public exponent. -/
def rsaE : Nat := 65537

/-- Fuelled binary modular exponentiation. -/
def powModGo : Nat → Nat → Nat → Nat → Nat
  | 0, _, _, m => 1 % m
  | fuel + 1, b, e, m =>
    if e = 0 then 1 % m
    else
      let h := powModGo fuel (b * b % m) (e / 2) m
      if e % 2 = 1 then h * b % m else h

/-- Modular power `b ^ e mod m` (the `rsa.core.decrypt_int` computation). -/
def powMod (b e m : Nat) : Nat := powModGo (e + 1) b e m

/-- Model of `rsa.common.byte_size`: number of bytes needed to hold `n`. -/
def byteSize (n : Nat) : Nat := if n = 0 then 1 else Nat.log2 n / 8 + 1

/-- Model of `rsa.transform.bytes2int`: big-endian bytes to natural. -/
def bytes2int (bs : Bytes) : Nat := bs.foldl (fun a b => a * 256 + b) 0

/-- Model of `rsa.transform.int2bytes` with a fill size: `none` models the
`OverflowError` when the number needs more than `k` bytes. -/
def int2bytes (n k : Nat) : Option Bytes :=
  if n < 256 ^ k then some (beBytes k n) else none

/-- The PKCS#1 v1.5 `DigestInfo` ASN.1 prefix for SHA-256
(`rsa.pkcs1.HASH_ASN1['SHA-256']`). -/
def asn1Sha256 : Bytes :=
  [48, 49, 48, 13, 6, 9, 96, 134, 72, 1, 101, 3, 4, 2, 1, 5, 0, 4, 32]

/-- Model of `rsa.pkcs1._pad_for_signing`: `00 01 FF..FF 00 ∥ cleartext`, `k` bytes
total; `none` models the `OverflowError` for an over-long message. -/
def padForSigning (cleartext : Bytes) (k : Nat) : Option Bytes :=
  if cleartext.length + 11 > k then none
  else some (0 :: 1 :: List.replicate (k - cleartext.length - 3) 255 ++
    0 :: cleartext)

/-- Model of `rsa.verify(message, signature, pub_key)` for the embedded key, wrapped
in the caller's `try/except`: `true` means verified, `false` any
verification error. -/
def rsaVerify (message signature : Bytes) : Bool :=
  let keylength := byteSize rsaN
  let decrypted := powMod (bytes2int signature) rsaE rsaN
  match int2bytes decrypted keylength with
  | none => false
  | some clearsig =>
    if !containsSeq asn1Sha256 clearsig then false
    else
      let messageHash := sha256 message
      let cleartext := asn1Sha256 ++ messageHash
      match padForSigning cleartext keylength with
      | none => false
      | some expected =>
        signature.length == keylength && expected == clearsig

/-! ## `validate_update_file` (interactive.py lines 159-210)

The update-bundle file is a byte list.  `read_last_significant_line` works on
raw bytes; the content hash is computed from a *text-mode* read
(UTF-8 decode, universal-newline translation, `f.read(content_end)`
counting characters). -/

/-- Search a reversed line list for the first non-blank stripped line. -/
def rlslGo : List Bytes → Except String Bytes
  | [] => .error "ValueError: No significant line found in the file."
  | l :: rest =>
    let s := stripBytes l
    if s = [] then rlslGo rest else .ok s

/-- Model of `read_last_significant_line`: the stripped last non-blank line of the
file, read as bytes. -/
def readLastSignificantLine (file : Bytes) : Except String Bytes :=
  rlslGo (splitLinesKeep file).reverse

/-- The quantity `content_end = file_size - (len(last_line_bytes) + 1)` (an `int`; it can
be negative for degenerate files). -/
def contentEndOf (file : Bytes) : Except String Int := do
  let lastLine ← readLastSignificantLine file
  pure ((file.length : Int) - ((lastLine.length : Int) + 1))

/-- The text whose UTF-8 encoding `validate_update_file` hashes:
`f.read(content_end).strip()` on the text-mode stream (assumed UTF-8 with
universal newlines), re-encoded.  The model decodes the whole file up
front, where CPython decodes incrementally; the two agree whenever the file
is valid UTF-8, which every input considered here is. -/
def calcContent (file : Bytes) : Except String Bytes := do
  let n ← contentEndOf file
  match utf8Decode file with
  | none => .error "UnicodeDecodeError"
  | some text => pure (utf8Encode (stripUni (pyReadN n (unlTranslate text))))

/-- Parse the signature line's JSON metadata: returns
`(unhexlify(sha256 field), a2b_base64(signature field))`. -/
def parseSigLine (file : Bytes) : Except String (Bytes × Bytes) := do
  let lastLine ← readLastSignificantLine file
  let sigText ← match utf8Decode lastLine with
    | none => .error "UnicodeDecodeError"
    | some t => pure t
  let fields ← match jsonLoads sigText with
    | some (JVal.jobj fs) => pure fs
    | some _ => .error "AttributeError: get on a non-dict"
    | none => .error "json.JSONDecodeError"
  let shaStr ← match jGet fields (sb "sha256") with
    | none => pure ([] : Bytes)
    | some (JScalar.jstr s) => pure s
    | some _ => .error "TypeError: unhexlify argument"
  let expected ← match unhexlify shaStr with
    | none => .error "binascii.Error"
    | some e => pure e
  let sigStr ← match jGet fields (sb "signature") with
    | none => pure ([] : Bytes)
    | some (JScalar.jstr s) => pure s
    | some _ => .error "TypeError: a2b_base64 argument"
  let signature ← match a2bBase64 sigStr with
    | none => .error "binascii.Error"
    | some s => pure s
  pure (expected, signature)

/-- Model of `validate_update_file`: `.ok b` models returning `b`, `.error` a raised
exception.  The `rsa.verify` call is inside `try/except` (any failure there
yields `False`, not an exception). -/
def validateUpdateFile (file : Bytes) : Except String Bool := do
  let content ← calcContent file
  let calculated := sha256 content
  let (expected, signature) ← parseSigLine file
  if calculated ≠ expected then pure false
  else pure (rsaVerify calculated signature)

/-- Modelled from the spec for the C1 refinement comparison: the region the
spec says is hashed — the first `file_size − (len(sig_line)+1)` *bytes* of
the file, read as UTF-8 text and stripped. -/
def specContentRegion (file : Bytes) : Except String Bytes := do
  let n ← contentEndOf file
  match utf8Decode (pyReadN n file) with
  | none => .error "UnicodeDecodeError"
  | some text => pure (utf8Encode (stripUni text))

/-! ## Board transfer (ray.py)

`update_files` entries are dicts with keys `filename`, `metadata`
(a parsed JSON object, of which only `execute` is ever read) and
`base64_contents`.  Board state enters only as the SHA-256 index the board
reports (`sha256_index`), modelled as an association list parameter. -/

/-- One bundle file entry as consumed by `Ray.write_update_to_board`. -/
structure FileInfo where
  /-- The `filename` field. -/
  filename : Bytes
  /-- `metadata.get("execute", False)`. -/
  metaExecute : Bool
  /-- The remaining metadata fields (never read by the transfer code). -/
  metaRest : List (Bytes × JScalar)
  /-- The `base64_contents` field. -/
  base64Contents : Bytes
deriving DecidableEq, Repr

/-- The constant `COMMAND_CHUNK_SIZE` from ray.py. -/
def commandChunkSize : Nat := 5000

/-- Path normalization: prepend `/` unless already present
(`if not filename.startswith("/")`). -/
def normPath (p : Bytes) : Bytes := if p.head? = some 47 then p else 47 :: p

/-- First index of byte `c` (Python `str.find`, `none` for −1). -/
def firstIdxOf (c : Nat) : Bytes → Option Nat
  | [] => none
  | b :: rest => if b = c then some 0 else (firstIdxOf c rest).map (· + 1)

/-- Last index of byte `c` (Python `str.rfind`, `none` for −1). -/
def lastIdxOf (c : Nat) : Bytes → Option Nat
  | [] => none
  | b :: rest =>
    match lastIdxOf c rest with
    | some i => some (i + 1)
    | none => if b = c then some 0 else none

/-- Model of `posixpath.dirname`. -/
def pyDirname (p : Bytes) : Bytes :=
  match lastIdxOf 47 p with
  | none => []
  | some i =>
    let head := p.take (i + 1)
    if head.all (· == 47) then head else rstripP (· == 47) head

/-- The digest `generate_transfer_script` embeds in the `hash_check` line:
recomputed from the base64-decoded body (never read from metadata). -/
def genExpectedHash (contents : Bytes) : Except String Bytes :=
  match a2bBase64 contents with
  | none => .error "binascii.Error"
  | some d => .ok (hexBytes (sha256 d))

/-- The digest `get_files_to_update` compares against the board index:
likewise recomputed from the base64-decoded body. -/
def gfDigest (contents : Bytes) : Except String Bytes :=
  match a2bBase64 contents with
  | none => .error "binascii.Error"
  | some d => .ok (hexBytes (sha256 d))

/-- Total companion of the two digest computations (equal to them whenever
the body decodes). -/
def dgst (e : FileInfo) : Bytes :=
  hexBytes (sha256 ((a2bBase64 e.base64Contents).getD []))

/-- Modelled from the spec for the C4 refinement comparison:
`sha256_hex = hex(SHA256(base64_decode(body_b64)))`. -/
def specSha256Hex (contents : Bytes) : Option Bytes :=
  (a2bBase64 contents).map fun d => hexBytes (sha256 d)

/-- Association-list lookup (Python `dict` access by key). -/
def alookup (d : List (Bytes × Bytes)) (k : Bytes) : Option Bytes :=
  match d with
  | [] => none
  | p :: rest => if p.1 = k then some p.2 else alookup rest k

/-- Remove the entry with key `k` (Python `del d[k]`; keys are unique). -/
def aerase (d : List (Bytes × Bytes)) (k : Bytes) : List (Bytes × Bytes) :=
  match d with
  | [] => []
  | p :: rest => if p.1 = k then rest else p :: aerase rest k

/-- State of the first loop of `get_files_to_update`: the `required_files`
list and the insertion-ordered `expected_sha256_index` dict. -/
structure GFState where
  /-- `required_files` so far. -/
  required : List Bytes
  /-- `expected_sha256_index` so far. -/
  index : List (Bytes × Bytes)
deriving DecidableEq, Repr

/-- One iteration of the first loop of `get_files_to_update`
(ray.py lines 365-384). -/
def gfStep (st : GFState) (e : FileInfo) : Except String GFState := do
  let p := normPath e.filename
  let dh ← gfDigest e.base64Contents
  match alookup st.index p with
  | some h =>
    if h ≠ dh then pure ⟨st.required ++ [p], aerase st.index p⟩
    else pure st
  | none => pure ⟨st.required, st.index ++ [(p, dh)]⟩

/-- The first loop of `get_files_to_update`. -/
def gfLoop : List FileInfo → GFState → Except String GFState
  | [], st => pure st
  | e :: es, st => do gfLoop es (← gfStep st e)

/-- Pure companion of `gfStep` (equal whenever the body decodes). -/
def gfStepP (st : GFState) (e : FileInfo) : GFState :=
  let p := normPath e.filename
  let dh := dgst e
  match alookup st.index p with
  | some h =>
    if h ≠ dh then ⟨st.required ++ [p], aerase st.index p⟩
    else st
  | none => ⟨st.required, st.index ++ [(p, dh)]⟩

/-- Pure companion of `gfLoop`. -/
def gfLoopP : List FileInfo → GFState → GFState
  | [], st => st
  | e :: es, st => gfLoopP es (gfStepP st e)

/-- Model of `Ray.get_files_to_update(expected_files)` given the board's reported
hash index `board`: the first loop, then the comparison against the board
index in dict insertion order. -/
def getFilesToUpdate (files : List FileInfo) (board : List (Bytes × Bytes)) :
    Except String (List Bytes) := do
  let st ← gfLoop files ⟨[], []⟩
  pure (st.required ++
    (st.index.filter fun kv => decide (alookup board kv.1 ≠ some kv.2)).map
      Prod.fst)

/-- The filename mutation `get_files_to_update` performs on the shared
`update_files` entries (prepending `/`). -/
def normEntry (e : FileInfo) : FileInfo :=
  { e with filename := normPath e.filename }

/-- The file list `write_update_to_board` passes to the generator: entries
whose (mutated) filename is in `required_files`, plus every entry whose
metadata has `execute` set (ray.py line 238). -/
def writeSelection (files : List FileInfo) (board : List (Bytes × Bytes)) :
    Except String (List FileInfo) := do
  let req ← getFilesToUpdate files board
  pure ((files.map normEntry).filter fun e =>
    decide (e.filename ∈ req) || e.metaExecute)

/-- Join script lines with `\n` (Python `"\n".join`). -/
def pyJoinNl : List Bytes → Bytes
  | [] => []
  | [l] => l
  | l :: l2 :: rest => l ++ 10 :: pyJoinNl (l2 :: rest)

/-- The `setup_lines` preamble of `generate_transfer_script`, transcribed
verbatim (including the implicit string concatenation in the
`try: os.remove` line of the Python source). -/
def setupLines : List Bytes :=
  [sb "import os",
   sb "import binascii",
   sb "import hashlib",
   sb "f = None",
   sb "hash_checks = []",
   sb "def w(data):",
   sb "    global f",
   sb "    f.write(binascii.a2b_base64(data))",
   sb "    f.flush()",
   sb "",
   sb "def hash_check(path, expected_hash):",
   sb "    try:",
   sb "        sha256 = hashlib.sha256()",
   sb "        with open(path, \x27rb\x27) as f:",
   sb "            while True:",
   sb "                chunk = f.read(1024)",
   sb "                if not chunk:",
   sb "                    break",
   sb "                sha256.update(chunk)",
   sb "        hash = binascii.hexlify(sha256.digest()).decode(\x27utf-8\x27)",
   sb "    except Exception:",
   sb "        hash = \x27\x27",
   sb "    global hash_checks",
   sb "    hash_checks.append((path, hash == expected_hash))",
   sb "",
   sb "def mdir(path):",
   sb "    try:",
   sb "        os.mkdir(path)",
   sb "    except OSError:",
   sb "        pass",
   sb "",
   sb "def execute_file(path):",
   sb "    module_path = path.replace(\x27/\x27, \x27.\x27).replace(\x27.py\x27, \x27\x27)",
   sb "    if module_path.startswith(\x27.\x27):",
   sb "        module_path = module_path[1:]",
   sb "    try:",
   sb "        imported_module = __import__(module_path)",
   sb "        if hasattr(imported_module, \x27main\x27):",
   sb "            imported_module.main()",
   sb "    except Exception as e:",
   sb "        print(\x27Error message:\x27, str(e))",
   sb "        print(\x27Error executing file:\x27, path)",
   sb "    try:        os.remove(path)",
   sb "    except OSError:",
   sb "        pass"]

/-- The generated `mdir('<dir>')` line. -/
def mdirLine (d : Bytes) : Bytes := sb "mdir(" ++ sq ++ d ++ sq ++ sb ")"

/-- The generated `f = open('<path>', 'wb')` line. -/
def openLine (p : Bytes) : Bytes :=
  sb "f = open(" ++ sq ++ p ++ sq ++ sb ", " ++ sq ++ sb "wb" ++ sq ++ sb ")"

/-- The generated `w('<chunk>')` line. -/
def wLine (chunk : Bytes) : Bytes := sb "w(" ++ sq ++ chunk ++ sq ++ sb ")"

/-- The generated `f.close()` line. -/
def closeLine : Bytes := sb "f.close()"

/-- The generated `hash_check('<path>', '<hash>')` line. -/
def hashCheckLine (p h : Bytes) : Bytes :=
  sb "hash_check(" ++ sq ++ p ++ sq ++ sb ", " ++ sq ++ h ++ sq ++ sb ")"

/-- The generated `execute_file('<path>')` line. -/
def executeLine (p : Bytes) : Bytes :=
  sb "execute_file(" ++ sq ++ p ++ sq ++ sb ")"

/-- The per-file lines yielded by `generate_transfer_script`
(ray.py lines 180-221). -/
def fileScriptLines (e : FileInfo) : Except String (List Bytes) :=
  if e.filename = [] then .error "ValueError: Missing filename"
  else
    let filename := normPath e.filename
    let dirPath := pyDirname filename
    let mdirLines :=
      if dirPath = [] ∨ dirPath = [47] then [] else [mdirLine dirPath]
    let wLines := (groupsOf (commandChunkSize - 20) e.base64Contents).map wLine
    match genExpectedHash e.base64Contents with
    | .error msg => .error msg
    | .ok h =>
      .ok (mdirLines ++ [openLine filename] ++ wLines ++ [closeLine] ++
        [hashCheckLine filename h] ++
        (if e.metaExecute then [executeLine filename] else []))

/-- The on-device paths carried by the lines `generate_transfer_script`
emits for one entry: the `mdir` argument (when emitted) and the common
path of the `open` / `hash_check` / `execute_file` lines. -/
def emittedPathsOfFile (e : FileInfo) : List Bytes :=
  let filename := normPath e.filename
  let dirPath := pyDirname filename
  (if dirPath = [] ∨ dirPath = [47] then [] else [dirPath]) ++ [filename]

/-- Every line yielded by `generate_transfer_script(files)`: the joined
preamble first, then the per-file lines. -/
def transferScriptLines (files : List FileInfo) :
    Except String (List Bytes) := do
  let perFile ← files.mapM fileScriptLines
  pure (pyJoinNl setupLines :: perFile.flatten)

/-- The chunking loop of `write_update_to_board` (ray.py lines 240-253):
`cur` is `current_block`, `n` is `current_len` (the sum of the line lengths,
without the joining newlines). -/
def chunkBlocks : List Bytes → List Bytes → Nat → List (List Bytes)
  | [], cur, _ => if cur.isEmpty then [] else [cur]
  | line :: rest, cur, n =>
    if n + line.length > commandChunkSize then
      cur :: chunkBlocks rest [line] line.length
    else chunkBlocks rest (cur ++ [line]) (n + line.length)

/-- The script blocks `write_update_to_board` submits to `send_command`,
in order. -/
def sentBlocks (lines : List Bytes) : List (List Bytes) :=
  chunkBlocks lines [] 0

/-- The byte string actually submitted for one block
(`"\n".join(current_block)`). -/
def blockScript (b : List Bytes) : Bytes := pyJoinNl b

/-- The blocks submitted by `write_update_to_board(update_files)` against a
board whose hash index is `board`. -/
def writeBlocks (files : List FileInfo) (board : List (Bytes × Bytes)) :
    Except String (List (List Bytes)) := do
  let sel ← writeSelection files board
  let lines ← transferScriptLines sel
  pure (sentBlocks lines)

/-- The final check of `write_update_to_board` (ray.py lines 257-271) on the
board's output: locate the first `[` and the last `]`, strip the slice, and
succeed only on `[]`. -/
def postTransferCheck (output : Bytes) : Except String Unit :=
  match firstIdxOf 91 output, lastIdxOf 93 output with
  | some s, some e =>
    let cut := stripUni ((output.drop s).take (e + 1 - s))
    if cut = [91, 93] then .ok ()
    else .error "ValueError: Board failed to upload files"
  | _, _ => .error "ValueError: Board failed to return hash checks"

/-! ## Bundle extraction in `flash_software` (core.py lines 185-212)

The update file is read in text mode, so lines are code-point lists.
`line.split("{", 1)` and `.split("}", 1)` are modelled by `splitOnce`;
with no separator present, Python's two-target unpacking raises
`ValueError`. -/

/-- Python `s.split(sep, 1)` restricted to the two-part case: `none` when
`sep` does not occur (unpacking then raises). -/
def splitOnce (sep : Nat) : Bytes → Option (Bytes × Bytes)
  | [] => none
  | c :: rest =>
    if c = sep then some ([], rest)
    else (splitOnce sep rest).map fun p => (c :: p.1, p.2)

/-- Processing of one stripped non-empty bundle line by `flash_software`:
split at the first `{`, then the first `}` after it; parse the re-wrapped
middle as JSON; base64-decode the remainder; `none` result models the
`continue` taken for an empty filename (the signature line). -/
def processLine (line : Bytes) :
    Except String (Option (Bytes × JVal × Bytes)) :=
  match splitOnce 123 line with
  | none => .error "ValueError: not enough values to unpack"
  | some (filename, rest) =>
    match splitOnce 125 rest with
    | none => .error "ValueError: not enough values to unpack"
    | some (metadata, contents) =>
      match jsonLoads (123 :: (metadata ++ [125])) with
      | none => .error "json.JSONDecodeError"
      | some m =>
        match a2bBase64 contents with
        | none => .error "binascii.Error"
        | some c =>
          if filename = [] then .ok none
          else .ok (some (filename, m, c))

/-- The `(filename, decoded contents)` pairs `flash_software` writes to the
extraction directory, from the lines after the header. -/
def flashExtract : List Bytes → Except String (List (Bytes × Bytes))
  | [] => .ok []
  | line :: rest =>
    let s := stripUni line
    if s = [] then flashExtract rest
    else do
      let r ← processLine s
      let fs ← flashExtract rest
      match r with
      | none => pure fs
      | some (fn, _, c) => pure ((fn, c) :: fs)

/-- The part of a line before the first `{` (the filename field named by the
spec). -/
def fnPartOf (line : Bytes) : Bytes := line.takeWhile (fun c => c != 123)

/-- The part of a line after the first `{`. -/
def afterBrace (line : Bytes) : Bytes :=
  (line.dropWhile (fun c => c != 123)).tail

/-- The metadata text: between the first `{` and the first `}` after it. -/
def metaPartOf (line : Bytes) : Bytes :=
  (afterBrace line).takeWhile (fun c => c != 125)

/-- The base64 body: everything after the first `}` after the first `{`. -/
def bodyOf (line : Bytes) : Bytes :=
  ((afterBrace line).dropWhile (fun c => c != 125)).tail

/-! ## Nuke image selection in `flash_firmware` (core.py lines 50-54) -/

/-- The nuke-selection step of `flash_firmware`:
`[path for path in list_bundled_uf2() if "nuke.uf2" in path][0]`, followed by
the `len(nuke_path) == 0` error branch. -/
def selectNuke (paths : List Bytes) : Except String Bytes :=
  match (paths.filter (containsSeq (sb "nuke.uf2"))).head? with
  | none => .error "IndexError: list index out of range"
  | some nukePath =>
    if nukePath.length = 0 then .error "Error: nuke.uf2 not found in bundled UF2 files."
    else .ok nukePath

/-! ## `wait_for` and `graceful_exit` (util.py)

Real time is shallowly embedded as the sequence of `time.time()` readings at
the top of each loop iteration: the iteration sleeps 500 ms and then runs
the predicate, which takes `d n` further milliseconds, so reading `n+1`
is `500 + d n` ms after reading `n`.  The predicate outcome at each
iteration (a Boolean, or a `KeyboardInterrupt` arriving during the
iteration) is the event sequence `ev`. -/

/-- The observable effects of `graceful_exit(now)`: `Ray.close_all()`, an
`input()` prompt only when `now` is false, and `sys.exit(0)`. -/
structure ExitState where
  /-- Whether `Ray.close_all()` ran. -/
  closedAll : Bool
  /-- Whether the operator was prompted (`input("Press ENTER to exit.")`). -/
  prompted : Bool
  /-- The process exit status. -/
  exitCode : Nat
deriving DecidableEq, Repr

/-- Model of `graceful_exit(now)`. -/
def gracefulExit (now : Bool) : ExitState :=
  { closedAll := true, prompted := !now, exitCode := 0 }

/-- What one `wait_for` iteration observes. -/
inductive PollEvent where
  /-- A `KeyboardInterrupt` arrives during this iteration. -/
  | interrupt
  /-- The predicate returns, with the given truthiness. -/
  | val (b : Bool)
deriving DecidableEq, Repr

/-- How `wait_for` ends. -/
inductive WaitOutcome where
  /-- `TimeoutError` raised. -/
  | timedOut
  /-- The predicate returned truthy at iteration `n`. -/
  | success (n : Nat)
  /-- `KeyboardInterrupt` handled by `graceful_exit(now=True)`. -/
  | interrupted (st : ExitState)
  /-- Fuel exhausted (the model's stand-in for a still-running loop). -/
  | spinning
deriving DecidableEq, Repr

/-- The `time.time()` reading (in ms) at the top of iteration `n`: each
iteration adds the 500 ms sleep plus the predicate duration `d`. -/
def checkTimes (start : Nat) (d : Nat → Nat) : Nat → Nat
  | 0 => start
  | n + 1 => checkTimes start d n + 500 + d n

/-- The `wait_for` loop from iteration `n` on, with `fuel` remaining
iterations. -/
def waitForAux (timeout : Option Nat) (start : Nat) (d : Nat → Nat)
    (ev : Nat → PollEvent) : Nat → Nat → WaitOutcome
  | 0, _ => .spinning
  | fuel + 1, n =>
    let elapsed := checkTimes start d n - start
    let timedOut := match timeout with
      | some t => decide (elapsed > t)
      | none => false
    if timedOut then .timedOut
    else
      match ev n with
      | .interrupt => .interrupted (gracefulExit true)
      | .val true => .success n
      | .val false => waitForAux timeout start d ev fuel (n + 1)

/-- Model of `wait_for(listen_func, timeout)` under the time embedding. -/
def waitFor (timeout : Option Nat) (start : Nat) (d : Nat → Nat)
    (ev : Nat → PollEvent) (fuel : Nat) : WaitOutcome :=
  waitForAux timeout start d ev fuel 0

/-! ## Concrete inputs used by counterexamples and witnesses -/

/-- A two-line bundle whose content holds a two-byte UTF-8 character
(`é \n` then `X \n`): text-mode character counting diverges from the
byte count here. -/
def cexFile : Bytes := [195, 169, 10, 88, 10]

/-- An ASCII bundle whose signature metadata carries a wrong `sha256`. -/
def wFile : Bytes :=
  sb "hello\n\x7b\"sha256\":\"00\",\"signature\":\"\"\x7d\n"

/-- Many copies of a tiny entry: enough short generated lines to drive one
joined block past `COMMAND_CHUNK_SIZE`. -/
def cexFiles : List FileInfo :=
  List.replicate 60 ⟨sb "a", false, [], []⟩

/-- Two distinct small entries, the second marked `execute`. -/
def wEntries : List FileInfo :=
  [⟨sb "a", false, [], []⟩, ⟨sb "b", true, [], sb "YWJj"⟩]

/-- A board index that already matches `wEntries` (the unchanged-board
scenario). -/
def wBoard : List (Bytes × Bytes) :=
  [(47 :: sb "a", dgst ⟨sb "a", false, [], []⟩),
   (47 :: sb "b", dgst ⟨sb "b", true, [], sb "YWJj"⟩)]

/-- A concrete bundle file line with filename, metadata and base64 body. -/
def w7line : Bytes := sb "src/main.py\x7b\"execute\": true\x7d YWJj"

/-! ## Derived quantities used in the statements -/

/-- Sum of the byte lengths of the lines of a block (what `current_len`
tracks: the joining newlines are not counted). -/
def sumLens (b : List Bytes) : Nat := (b.map List.length).sum

/-- The path invariant of the spec: exactly one leading `/`, and no
backslash. -/
def goodPath (p : Bytes) : Prop :=
  p.head? = some 47 ∧ p.tail.head? ≠ some 47 ∧ 92 ∉ p

/-- The value `get_files_to_update` returns when no decode error occurs. -/
def gfResult (files : List FileInfo) (board : List (Bytes × Bytes)) :
    List Bytes :=
  (gfLoopP files ⟨[], []⟩).required ++
    ((gfLoopP files ⟨[], []⟩).index.filter fun kv =>
      decide (alookup board kv.1 ≠ some kv.2)).map Prod.fst

/-- Invariant of the first loop of `get_files_to_update` after processing
the entries `seen`. -/
def GFInv (seen : List FileInfo) (st : GFState) : Prop :=
  (∀ p ∈ st.required, ∃ e1 ∈ seen, ∃ e2 ∈ seen,
      normPath e1.filename = p ∧ normPath e2.filename = p ∧
      dgst e1 ≠ dgst e2) ∧
  (∀ p h, (p, h) ∈ st.index →
      ∃ e ∈ seen, normPath e.filename = p ∧ dgst e = h) ∧
  (∀ e ∈ seen, normPath e.filename ∈ st.required ∨
      alookup st.index (normPath e.filename) = some (dgst e)) ∧
  (st.index.map Prod.fst).Nodup

/-! # Theorems -/

/-- A successful prefix match is no longer than the searched list. -/
theorem startsSeq_length_le : ∀ pat l : Bytes, startsSeq pat l = true →
    pat.length ≤ l.length
  | [], _, _ => Nat.zero_le _
  | _ :: _, [], h => by simp [startsSeq] at h
  | a :: ps, b :: l, h => by
    simp only [startsSeq, Bool.and_eq_true] at h
    simpa using startsSeq_length_le ps l h.2

/-- A successful substring match is no longer than the searched list. -/
theorem containsSeq_length_le (pat : Bytes) :
    ∀ l : Bytes, containsSeq pat l = true → pat.length ≤ l.length
  | [], h => by
    simp only [containsSeq, List.isEmpty_iff] at h
    simp [h]
  | b :: l, h => by
    simp only [containsSeq, Bool.or_eq_true] at h
    rcases h with h | h
    · exact startsSeq_length_le _ _ h
    · exact Nat.le_succ_of_le (containsSeq_length_le pat l h)

/-- C10: in `flash_firmware`, indexing `[...][0]` raises `IndexError`
exactly when no bundled UF2 path contains `"nuke.uf2"`, and the subsequent
`len(nuke_path) == 0` error branch is unreachable: a selected path contains
`"nuke.uf2"` and hence is non-empty. -/
theorem selectNuke_dead_branch (paths : List Bytes) :
    (selectNuke paths = .error "IndexError: list index out of range" ↔
      ∀ p ∈ paths, containsSeq (sb "nuke.uf2") p = false) ∧
    selectNuke paths ≠
      .error "Error: nuke.uf2 not found in bundled UF2 files." := by
  cases hh : (paths.filter (containsSeq (sb "nuke.uf2"))).head? with
  | none =>
    have hred : selectNuke paths =
        .error "IndexError: list index out of range" := by
      unfold selectNuke
      rw [hh]
    rw [List.head?_eq_none_iff] at hh
    simp only [List.filter_eq_nil_iff] at hh
    refine ⟨⟨fun _ p hp => Bool.eq_false_iff.mpr (hh p hp), fun _ => hred⟩, ?_⟩
    rw [hred]
    simp
  | some q =>
    have hq := List.mem_of_mem_head? hh
    rw [List.mem_filter] at hq
    have hlen : 8 ≤ q.length := by
      simpa [sb] using containsSeq_length_le (sb "nuke.uf2") q hq.2
    have hne : ¬(q.length = 0) := by omega
    have hred : selectNuke paths = .ok q := by
      unfold selectNuke
      rw [hh]
      simp [hne]
    rw [hred]
    refine ⟨⟨fun h => by simp at h, fun hall => ?_⟩, by simp⟩
    have := hall q hq.1
    rw [hq.2] at this
    simp at this

/-- C6: `write_update_to_board` returns normally from its final check
exactly when the board output has a `[`, a `]`, and the stripped slice from
the first `[` to the last `]` is the two-character string `[]`; in every
other case it raises. -/
theorem postTransferCheck_ok_iff (output : Bytes) :
    postTransferCheck output = .ok () ↔
      ∃ i j, firstIdxOf 91 output = some i ∧ lastIdxOf 93 output = some j ∧
        stripUni ((output.drop i).take (j + 1 - i)) = [91, 93] := by
  unfold postTransferCheck
  cases h1 : firstIdxOf 91 output with
  | none => simp [h1]
  | some i =>
    cases h2 : lastIdxOf 93 output with
    | none => simp [h2]
    | some j =>
      by_cases hc : stripUni ((output.drop i).take (j + 1 - i)) = [91, 93]
      · simp [hc]
      · simp [hc]

/-- Step equation of the modelled `wait_for` loop with a set timeout. -/
theorem waitForAux_succ (t start : Nat) (d : Nat → Nat) (ev : Nat → PollEvent)
    (fuel n : Nat) :
    waitForAux (some t) start d ev (fuel + 1) n =
      if decide (checkTimes start d n - start > t) = true then .timedOut
      else
        match ev n with
        | .interrupt => .interrupted (gracefulExit true)
        | .val true => .success n
        | .val false => waitForAux (some t) start d ev fuel (n + 1) := rfl

/-- Advance the modelled `wait_for` loop past `j` quiet iterations (predicate
false, no timeout). -/
theorem waitForAux_skip (t start : Nat) (d : Nat → Nat)
    (ev : Nat → PollEvent) :
    ∀ (j fuel n : Nat), (∀ k, k < j → ev (n + k) = .val false) →
      (∀ k, k < j → checkTimes start d (n + k) - start ≤ t) →
      j < fuel →
      waitForAux (some t) start d ev fuel n =
        waitForAux (some t) start d ev (fuel - j) (n + j) := by
  intro j
  induction j with
  | zero => intro fuel n _ _ _; simp
  | succ j ih =>
    intro fuel n hev hel hf
    cases fuel with
    | zero => omega
    | succ f =>
      have h0 : ev n = .val false := by simpa using hev 0 (by omega)
      have he0 : checkTimes start d n - start ≤ t := by
        simpa using hel 0 (by omega)
      rw [waitForAux_succ, if_neg (by simp; omega), h0]
      rw [ih f (n + 1)
        (fun k hk => by
          have := hev (k + 1) (by omega)
          simpa [Nat.add_assoc, Nat.add_comm 1 k] using this)
        (fun k hk => by
          have := hel (k + 1) (by omega)
          simpa [Nat.add_assoc, Nat.add_comm 1 k] using this)
        (by omega)]
      have e1 : f - j = f + 1 - (j + 1) := by omega
      have e2 : n + 1 + j = n + (j + 1) := by omega
      rw [e1, e2]

/-- C9: under the time embedding, consecutive predicate polls are 500 ms
plus the poll duration apart; if the predicate has stayed false and the
elapsed time first exceeds the timeout at iteration `n`, `wait_for` raises
`TimeoutError`; and if a `KeyboardInterrupt` arrives at iteration `n`
instead, `wait_for` closes all registered transports and exits with status 0
without prompting. -/
theorem waitFor_timeout_interrupt (t start : Nat) (d : Nat → Nat)
    (ev : Nat → PollEvent) (fuel n : Nat)
    (hpoll : ∀ k, k < n → ev k = .val false)
    (hpre : ∀ k, k < n → checkTimes start d k - start ≤ t)
    (hfuel : n < fuel) :
    (checkTimes start d (n + 1) - checkTimes start d n = 500 + d n) ∧
    (checkTimes start d n - start > t →
      waitFor (some t) start d ev fuel = .timedOut) ∧
    (checkTimes start d n - start ≤ t → ev n = .interrupt →
      waitFor (some t) start d ev fuel =
        .interrupted { closedAll := true, prompted := false, exitCode := 0 }) := by
  have hskip : waitFor (some t) start d ev fuel =
      waitForAux (some t) start d ev (fuel - n) n := by
    have := waitForAux_skip t start d ev n fuel 0
      (fun k hk => by simpa using hpoll k hk)
      (fun k hk => by simpa using hpre k hk) hfuel
    simpa [waitFor] using this
  refine ⟨by simp [checkTimes]; omega, ?_, ?_⟩
  · intro hgt
    rw [hskip]
    cases hf : fuel - n with
    | zero => omega
    | succ f =>
      rw [waitForAux_succ, if_pos (by simp; omega)]
  · intro hle hint
    rw [hskip]
    cases hf : fuel - n with
    | zero => omega
    | succ f =>
      rw [waitForAux_succ, if_neg (by simp; omega), hint]
      rfl

/-- C9 witness: a concrete run with timeout 1000 ms, zero poll durations and
an always-false predicate times out at the third poll. -/
theorem waitFor_timeout_interrupt_witness :
    ((∀ k, k < 3 → (fun _ => PollEvent.val false) k = PollEvent.val false) ∧
     (∀ k, k < 3 → checkTimes 0 (fun _ => 0) k - 0 ≤ 1000) ∧ 3 < 5) ∧
    ((checkTimes 0 (fun _ => 0) (3 + 1) - checkTimes 0 (fun _ => 0) 3 =
        500 + (fun _ => 0) 3) ∧
     (checkTimes 0 (fun _ => 0) 3 - 0 > 1000 →
       waitFor (some 1000) 0 (fun _ => 0) (fun _ => PollEvent.val false) 5 =
         .timedOut) ∧
     (checkTimes 0 (fun _ => 0) 3 - 0 ≤ 1000 →
       (fun _ => PollEvent.val false) 3 = PollEvent.interrupt →
       waitFor (some 1000) 0 (fun _ => 0) (fun _ => PollEvent.val false) 5 =
         .interrupted { closedAll := true, prompted := false, exitCode := 0 })) :=
  ⟨⟨by decide, by decide, by decide⟩,
    waitFor_timeout_interrupt 1000 0 (fun _ => 0) (fun _ => PollEvent.val false)
      5 3 (by decide) (by decide) (by decide)⟩

/-- The fuelled UTF-8 decoder is the identity on ASCII byte lists when the
fuel covers the length. -/
theorem utf8DecodeGo_ascii : ∀ (fuel : Nat) (l : Bytes), l.length ≤ fuel →
    (∀ b ∈ l, b < 128) → utf8DecodeGo fuel l = some l := by
  intro fuel
  induction fuel with
  | zero =>
    intro l hl _
    cases l with
    | nil => rfl
    | cons b rest => simp at hl
  | succ f ih =>
    intro l hl h
    cases l with
    | nil => rfl
    | cons b rest =>
      have hb : b < 128 := h b (List.mem_cons_self _ _)
      have := ih rest (by simp at hl; omega)
        (fun x hx => h x (List.mem_cons_of_mem _ hx))
      simp [utf8DecodeGo, hb, this]

/-- UTF-8 decoding is the identity on ASCII byte lists. -/
theorem utf8Decode_ascii (l : Bytes) (h : ∀ b ∈ l, b < 128) :
    utf8Decode l = some l :=
  utf8DecodeGo_ascii l.length l le_rfl h

/-- The newline-translation worker is the identity on CR-free lists when no
carriage return is pending. -/
theorem unlGo_nocr : ∀ l : Bytes, (∀ b ∈ l, b ≠ 13) → unlGo false l = l
  | [], _ => rfl
  | c :: rest, h => by
    have hc : c ≠ 13 := h c (List.mem_cons_self _ _)
    have ih := unlGo_nocr rest (fun x hx => h x (List.mem_cons_of_mem _ hx))
    by_cases hc10 : c = 10
    · subst hc10
      simp [unlGo, ih]
    · simp [unlGo, hc, hc10, ih]

/-- Universal-newline translation is the identity on CR-free lists. -/
theorem unlTranslate_nocr (l : Bytes) (h : ∀ b ∈ l, b ≠ 13) :
    unlTranslate l = l :=
  unlGo_nocr l h

/-- Reading with `pyReadN` yields elements of its input. -/
theorem pyReadN_subset (n : Int) (l : Bytes) : ∀ b ∈ pyReadN n l, b ∈ l := by
  intro b hb
  unfold pyReadN at hb
  split at hb
  · exact hb
  · exact List.take_subset _ _ hb

/-- C1 counterexample: on a bundle whose content contains the two-byte UTF-8
character `é`, text-mode character counting makes `validate_update_file`
hash a region that is not the first `N − (L + 1)` bytes of the file, and the
resulting SHA-256 digest differs from the digest of that byte region. -/
theorem c1_counterexample :
    calcContent cexFile = .ok [195, 169, 10, 88] ∧
    specContentRegion cexFile = .ok [195, 169] ∧
    sha256 [195, 169, 10, 88] ≠ sha256 [195, 169] :=
  ⟨by decide, by decide, by decide⟩

/-- C1 (amended): for files that are pure ASCII and carriage-return free —
where Python's character count coincides with the byte count and newline
translation is the identity — `validate_update_file` hashes exactly the
spec's region (the first `N − (L+1)` bytes, stripped), and returns `False`
whenever that digest differs from the hex `sha256` metadata value. -/
theorem validate_ascii_region (file : Bytes)
    (hA : ∀ b ∈ file, b < 128 ∧ b ≠ 13) :
    calcContent file = specContentRegion file ∧
    (∀ c exp sg, calcContent file = .ok c →
      parseSigLine file = .ok (exp, sg) →
      sha256 c ≠ exp → validateUpdateFile file = .ok false) := by
  constructor
  · unfold calcContent specContentRegion
    cases hce : contentEndOf file with
    | error msg => simp [hce, bind, Except.bind]
    | ok n =>
      have hasc : ∀ b ∈ file, b < 128 := fun b hb => (hA b hb).1
      have hdec : utf8Decode file = some file := utf8Decode_ascii file hasc
      have hdec2 : utf8Decode (pyReadN n file) = some (pyReadN n file) :=
        utf8Decode_ascii _ (fun b hb => hasc b (pyReadN_subset n file b hb))
      have htr : unlTranslate file = file :=
        unlTranslate_nocr file (fun b hb => (hA b hb).2)
      simp [hce, hdec, hdec2, htr, bind, Except.bind]
  · intro c exp sg h1 h2 hne
    simp only [validateUpdateFile, h1, h2, bind, Except.bind]
    rw [if_pos hne]
    rfl

/-- C1 witness: a concrete ASCII bundle with a wrong `sha256` metadata
value exercises the amended theorem. -/
theorem validate_ascii_region_witness :
    (∀ b ∈ wFile, b < 128 ∧ b ≠ 13) ∧
    (calcContent wFile = specContentRegion wFile ∧
     (∀ c exp sg, calcContent wFile = .ok c →
       parseSigLine wFile = .ok (exp, sg) →
       sha256 c ≠ exp → validateUpdateFile wFile = .ok false)) :=
  ⟨by decide, validate_ascii_region wFile (by decide)⟩

/-- C2: once the signature line parses, `validate_update_file` never raises:
it returns `False` on a hash mismatch without consulting RSA, returns
`False` when PKCS#1 v1.5/SHA-256 verification against the embedded RSA-2048
key fails, and returns `True` exactly when the hash matches and the
signature verifies. -/
theorem validate_fails_closed (file c exp sg : Bytes)
    (h1 : calcContent file = .ok c)
    (h2 : parseSigLine file = .ok (exp, sg)) :
    validateUpdateFile file =
      .ok (if sha256 c = exp then rsaVerify (sha256 c) sg else false) := by
  by_cases he : sha256 c = exp
  · simp only [validateUpdateFile, h1, h2, bind, Except.bind]
    rw [if_neg (by simp [he]), if_pos he]
    rfl
  · simp only [validateUpdateFile, h1, h2, bind, Except.bind]
    rw [if_pos he, if_neg he]
    rfl

/-- C2 witness: the concrete mismatching bundle takes the hash-mismatch
branch and returns `False`. -/
theorem validate_fails_closed_witness :
    calcContent wFile = .ok (sb "hello") ∧
    parseSigLine wFile = .ok ([0], []) ∧
    validateUpdateFile wFile =
      .ok (if sha256 (sb "hello") = [0]
        then rsaVerify (sha256 (sb "hello")) [] else false) :=
  ⟨by decide, by decide,
    validate_fails_closed wFile (sb "hello") [0] [] (by decide) (by decide)⟩

/-- C4: the digest in the generated `hash_check` line and the digest the
delta computation compares against the board index are both the lowercase
hex SHA-256 of the base64-decoded body — the formula the spec states — and
they do not depend on the entry's metadata. -/
theorem digests_recomputed (e : FileInfo) (d : Bytes)
    (hd : a2bBase64 e.base64Contents = some d) :
    genExpectedHash e.base64Contents = .ok (hexBytes (sha256 d)) ∧
    gfDigest e.base64Contents = .ok (hexBytes (sha256 d)) ∧
    specSha256Hex e.base64Contents = some (hexBytes (sha256 d)) ∧
    (∀ ls, fileScriptLines e = .ok ls →
      hashCheckLine (normPath e.filename) (hexBytes (sha256 d)) ∈ ls) ∧
    (∀ ex mr, genExpectedHash
        ({ e with metaExecute := ex, metaRest := mr } : FileInfo).base64Contents
      = genExpectedHash e.base64Contents) := by
  have hg : genExpectedHash e.base64Contents = .ok (hexBytes (sha256 d)) := by
    simp [genExpectedHash, hd]
  refine ⟨hg, by simp [gfDigest, hd], by simp [specSha256Hex, hd], ?_,
    fun _ _ => rfl⟩
  intro ls hls
  simp only [fileScriptLines] at hls
  split at hls
  · exact absurd hls (by simp)
  · rw [hg] at hls
    simp only [Except.ok.injEq] at hls
    subst hls
    simp

/-- C4 witness: a concrete entry with body `YWJj` (= `abc`). -/
theorem digests_recomputed_witness :
    a2bBase64 (FileInfo.base64Contents ⟨sb "b", true, [], sb "YWJj"⟩) =
      some [97, 98, 99] ∧
    (genExpectedHash (FileInfo.base64Contents ⟨sb "b", true, [], sb "YWJj"⟩) =
        .ok (hexBytes (sha256 [97, 98, 99])) ∧
      gfDigest (FileInfo.base64Contents ⟨sb "b", true, [], sb "YWJj"⟩) =
        .ok (hexBytes (sha256 [97, 98, 99])) ∧
      specSha256Hex (FileInfo.base64Contents ⟨sb "b", true, [], sb "YWJj"⟩) =
        some (hexBytes (sha256 [97, 98, 99])) ∧
      (∀ ls, fileScriptLines ⟨sb "b", true, [], sb "YWJj"⟩ = .ok ls →
        hashCheckLine (normPath (FileInfo.filename ⟨sb "b", true, [], sb "YWJj"⟩))
          (hexBytes (sha256 [97, 98, 99])) ∈ ls) ∧
      (∀ ex mr, genExpectedHash
          ({ (⟨sb "b", true, [], sb "YWJj"⟩ : FileInfo) with
            metaExecute := ex, metaRest := mr } : FileInfo).base64Contents
        = genExpectedHash
            (FileInfo.base64Contents ⟨sb "b", true, [], sb "YWJj"⟩))) :=
  ⟨by decide, digests_recomputed ⟨sb "b", true, [], sb "YWJj"⟩ [97, 98, 99]
    (by decide)⟩

/-- Characterize a successful `splitOnce`: the pieces are the longest
separator-free prefix and the part after the first separator. -/
theorem splitOnce_some (sep : Nat) : ∀ l a b : Bytes,
    splitOnce sep l = some (a, b) →
    a = l.takeWhile (fun c => c != sep) ∧
    b = (l.dropWhile (fun c => c != sep)).tail := by
  intro l
  induction l with
  | nil => intro a b h; simp [splitOnce] at h
  | cons c rest ih =>
    intro a b h
    simp only [splitOnce] at h
    split at h
    · rename_i hc
      simp only [Option.some.injEq, Prod.mk.injEq] at h
      obtain ⟨ha, hb⟩ := h
      constructor
      · rw [← ha]; simp [List.takeWhile_cons, hc]
      · rw [← hb]; simp [List.dropWhile_cons, hc]
    · rename_i hc
      rw [Option.map_eq_some'] at h
      obtain ⟨⟨a2, b2⟩, hsp, hab⟩ := h
      obtain ⟨ha2, hb2⟩ := ih a2 b2 hsp
      simp only [Prod.mk.injEq] at hab
      constructor
      · rw [← hab.1, List.takeWhile_cons, if_pos (by simp [hc]), ha2]
      · rw [← hab.2, List.dropWhile_cons, if_pos (by simp [hc]), hb2]

/-- C7: one stripped non-empty bundle line is split at the first `{` and the
first `}` after it; the re-wrapped middle parses as JSON; the remainder
base64-decodes as the body; and the extraction loop writes a file from the
line exactly when the part before the first `{` is non-empty — so the
signature line, whose filename part is empty, yields no extracted file. -/
theorem flash_line_extraction (line : Bytes) (r : Option (Bytes × JVal × Bytes))
    (h : processLine (stripUni line) = .ok r) (hne : stripUni line ≠ []) :
    (r.isSome = true ↔ fnPartOf (stripUni line) ≠ []) ∧
    (∀ fn m c, r = some (fn, m, c) →
      fn = fnPartOf (stripUni line) ∧
      jsonLoads (123 :: (metaPartOf (stripUni line) ++ [125])) = some m ∧
      a2bBase64 (bodyOf (stripUni line)) = some c) ∧
    (∀ rest fs, flashExtract rest = .ok fs →
      flashExtract (line :: rest) =
        .ok ((match r with
          | some (fn, _, c) => [(fn, c)]
          | none => []) ++ fs)) := by
  have hstep : ∀ rest fs, flashExtract rest = .ok fs →
      flashExtract (line :: rest) =
        .ok ((match r with
          | some (fn, _, c) => [(fn, c)]
          | none => []) ++ fs) := by
    intro rest fs hrest
    simp only [flashExtract]
    rw [if_neg hne]
    simp only [h, hrest, bind, Except.bind]
    cases r with
    | none => rfl
    | some v =>
      obtain ⟨fn, m, c⟩ := v
      rfl
  simp only [processLine] at h
  split at h
  · exact absurd h (by simp)
  · rename_i fn0 rest0 h1
    split at h
    · exact absurd h (by simp)
    · rename_i meta0 contents0 h2
      split at h
      · exact absurd h (by simp)
      · rename_i m0 h3
        split at h
        · exact absurd h (by simp)
        · rename_i c0 h4
          obtain ⟨hfn0, hrest0⟩ :=
            splitOnce_some 123 (stripUni line) fn0 rest0 h1
          obtain ⟨hmeta0, hcont0⟩ :=
            splitOnce_some 125 rest0 meta0 contents0 h2
          have hfnPart : fnPartOf (stripUni line) = fn0 := hfn0.symm
          have hafter : afterBrace (stripUni line) = rest0 := by
            rw [afterBrace, hrest0]
          have hmetaPart : metaPartOf (stripUni line) = meta0 := by
            rw [metaPartOf, hafter, hmeta0]
          have hbody : bodyOf (stripUni line) = contents0 := by
            rw [bodyOf, hafter, hcont0]
          by_cases hfn : fn0 = []
          · rw [if_pos hfn] at h
            have hr : r = none := (Except.ok.inj h).symm
            subst hr
            refine ⟨by simp [hfnPart, hfn], by simp, hstep⟩
          · rw [if_neg hfn] at h
            have hr : r = some (fn0, m0, c0) := (Except.ok.inj h).symm
            subst hr
            refine ⟨by simp [hfnPart, hfn], ?_, hstep⟩
            intro fn m c hsome
            simp only [Option.some.injEq, Prod.mk.injEq] at hsome
            obtain ⟨e1, e2, e3⟩ := hsome
            subst e1; subst e2; subst e3
            exact ⟨hfnPart.symm, by rw [hmetaPart, h3], by rw [hbody, h4]⟩

/-- C7 witness: a concrete file line with path `src/main.py`, metadata
`execute: true` and body `YWJj`. -/
theorem flash_line_extraction_witness :
    processLine (stripUni w7line) =
      .ok (some (sb "src/main.py",
        JVal.jobj [(sb "execute", JScalar.jbool true)], [97, 98, 99])) ∧
    stripUni w7line ≠ [] ∧
    ((Option.isSome (some (sb "src/main.py",
        JVal.jobj [(sb "execute", JScalar.jbool true)], [97, 98, 99])) = true ↔
      fnPartOf (stripUni w7line) ≠ []) ∧
     (∀ fn m c, (some (sb "src/main.py",
          JVal.jobj [(sb "execute", JScalar.jbool true)], [97, 98, 99]) =
            some (fn, m, c)) →
        fn = fnPartOf (stripUni w7line) ∧
        jsonLoads (123 :: (metaPartOf (stripUni w7line) ++ [125])) = some m ∧
        a2bBase64 (bodyOf (stripUni w7line)) = some c) ∧
     (∀ rest fs, flashExtract rest = .ok fs →
       flashExtract (w7line :: rest) =
         .ok ((match (some (sb "src/main.py",
             JVal.jobj [(sb "execute", JScalar.jbool true)], [97, 98, 99]) :
             Option (Bytes × JVal × Bytes)) with
           | some (fn, _, c) => [(fn, c)]
           | none => []) ++ fs))) :=
  ⟨by decide, by decide,
    flash_line_extraction w7line _ (by decide) (by decide)⟩

/-! ## Association-list dictionary lemmas -/

/-- A found binding is a member. -/
theorem alookup_mem : ∀ (d : List (Bytes × Bytes)) (k v : Bytes),
    alookup d k = some v → (k, v) ∈ d := by
  intro d
  induction d with
  | nil => intro k v h; simp [alookup] at h
  | cons p rest ih =>
    intro k v h
    obtain ⟨p1, p2⟩ := p
    simp only [alookup] at h
    split at h
    · rename_i hk
      rw [List.mem_cons]
      left
      simp [Prod.ext_iff]
      exact ⟨hk.symm, (Option.some.inj h).symm⟩
    · exact List.mem_cons_of_mem _ (ih k v h)

/-- Lookup ignores a right extension when the key is already bound. -/
theorem alookup_append_some {d1 : List (Bytes × Bytes)} {k v : Bytes}
    (d2 : List (Bytes × Bytes)) (h : alookup d1 k = some v) :
    alookup (d1 ++ d2) k = some v := by
  induction d1 with
  | nil => simp [alookup] at h
  | cons p rest ih =>
    simp only [alookup] at h ⊢
    split at h
    · rename_i hk
      rw [if_pos hk]
      exact h
    · rename_i hk
      rw [if_neg hk]
      exact ih h

/-- Lookup falls through to a right extension when the key is unbound. -/
theorem alookup_append_none {d1 : List (Bytes × Bytes)} {k : Bytes}
    (d2 : List (Bytes × Bytes)) (h : alookup d1 k = none) :
    alookup (d1 ++ d2) k = alookup d2 k := by
  induction d1 with
  | nil => simp
  | cons p rest ih =>
    simp only [alookup] at h ⊢
    split at h
    · exact absurd h (by simp)
    · rename_i hk
      rw [if_neg hk]
      exact ih h

/-- An unbound key is absent from the key list. -/
theorem alookup_none_iff : ∀ (d : List (Bytes × Bytes)) (k : Bytes),
    alookup d k = none ↔ k ∉ d.map Prod.fst := by
  intro d
  induction d with
  | nil => intro k; simp [alookup]
  | cons p rest ih =>
    intro k
    simp only [alookup]
    split
    · rename_i hk
      simp [← hk]
    · rename_i hk
      rw [ih k]
      simp
      intro
      exact fun hcon => hk hcon.symm

/-- Erasing a key yields a sublist. -/
theorem aerase_sublist : ∀ (d : List (Bytes × Bytes)) (k : Bytes),
    (aerase d k).Sublist d := by
  intro d
  induction d with
  | nil => intro k; simp [aerase]
  | cons p rest ih =>
    intro k
    simp only [aerase]
    split
    · exact List.sublist_cons_self _ _
    · exact List.Sublist.cons₂ _ (ih k)

/-- Erasing one key leaves lookups of other keys unchanged. -/
theorem alookup_aerase_ne : ∀ (d : List (Bytes × Bytes)) (k k2 : Bytes),
    k2 ≠ k → alookup (aerase d k) k2 = alookup d k2 := by
  intro d
  induction d with
  | nil => intro k k2 _; rfl
  | cons p rest ih =>
    intro k k2 hne
    simp only [aerase]
    split
    · rename_i hk
      simp only [alookup]
      rw [if_neg]
      rw [hk]
      exact fun hcon => hne hcon.symm
    · simp only [alookup]
      split
      · rfl
      · exact ih k k2 hne

/-- With unique keys, every binding is found. -/
theorem mem_alookup : ∀ (d : List (Bytes × Bytes)) (k v : Bytes),
    (d.map Prod.fst).Nodup → (k, v) ∈ d → alookup d k = some v := by
  intro d
  induction d with
  | nil => intro k v _ h; simp at h
  | cons p rest ih =>
    intro k v hnd h
    simp only [List.map_cons, List.nodup_cons] at hnd
    rcases List.mem_cons.mp h with hm | hm
    · rw [← hm]
      simp [alookup]
    · simp only [alookup]
      split
      · rename_i hk
        exfalso
        apply hnd.1
        rw [hk]
        exact List.mem_map.mpr ⟨(k, v), hm, rfl⟩
      · exact ih k v hnd.2 hm

/-! ## The delta-computation invariant -/

/-- The trivial initial invariant. -/
theorem gfInv_init : GFInv [] ⟨[], []⟩ := by
  refine ⟨?_, ?_, ?_, ?_⟩ <;> simp [GFInv]

/-- Reduction of `gfStepP` when the path is not yet indexed. -/
theorem gfStepP_none {st : GFState} {e : FileInfo}
    (hl : alookup st.index (normPath e.filename) = none) :
    gfStepP st e =
      ⟨st.required, st.index ++ [(normPath e.filename, dgst e)]⟩ := by
  simp only [gfStepP]
  rw [hl]

/-- Reduction of `gfStepP` on a conflicting duplicate path. -/
theorem gfStepP_some_ne {st : GFState} {e : FileInfo} {h0 : Bytes}
    (hl : alookup st.index (normPath e.filename) = some h0)
    (hne : h0 ≠ dgst e) :
    gfStepP st e =
      ⟨st.required ++ [normPath e.filename],
        aerase st.index (normPath e.filename)⟩ := by
  simp only [gfStepP]
  rw [hl]
  simp [hne]

/-- Reduction of `gfStepP` on an agreeing duplicate path. -/
theorem gfStepP_some_eq {st : GFState} {e : FileInfo} {h0 : Bytes}
    (hl : alookup st.index (normPath e.filename) = some h0)
    (heq : h0 = dgst e) : gfStepP st e = st := by
  simp only [gfStepP]
  rw [hl]
  simp [heq]

/-- One entry preserves the loop invariant. -/
theorem gfInv_step (seen : List FileInfo) (st : GFState) (e : FileInfo)
    (h : GFInv seen st) : GFInv (seen ++ [e]) (gfStepP st e) := by
  obtain ⟨h1, h2, h3, h4⟩ := h
  cases hl : alookup st.index (normPath e.filename) with
  | none =>
    rw [gfStepP_none hl]
    refine ⟨?_, ?_, ?_, ?_⟩
    · intro p hp
      obtain ⟨e1, he1, e2, he2, hh⟩ := h1 p hp
      exact ⟨e1, List.mem_append_left _ he1, e2, List.mem_append_left _ he2, hh⟩
    · intro p hsh hmem
      rcases List.mem_append.mp hmem with hm | hm
      · obtain ⟨e2, he2, hn, hd⟩ := h2 p hsh hm
        exact ⟨e2, List.mem_append_left _ he2, hn, hd⟩
      · have hm2 : p = normPath e.filename ∧ hsh = dgst e := by
          simpa [Prod.ext_iff] using hm
        exact ⟨e, List.mem_append_right _ (by simp), hm2.1.symm, hm2.2.symm⟩
    · intro e2 he2
      rcases List.mem_append.mp he2 with hm | hm
      · rcases h3 e2 hm with hr | hlk
        · exact Or.inl hr
        · exact Or.inr (alookup_append_some _ hlk)
      · have he2e : e2 = e := by simpa using hm
        subst he2e
        refine Or.inr ?_
        rw [alookup_append_none _ hl]
        simp [alookup]
    · rw [List.map_append]
      simp only [List.map_cons, List.map_nil]
      refine List.Nodup.append h4 (by simp) ?_
      intro x hx hx2
      have : x = normPath e.filename := by simpa using hx2
      subst this
      exact (alookup_none_iff st.index _).mp hl hx
  | some h0 =>
    by_cases hne : h0 = dgst e
    · rw [gfStepP_some_eq hl hne]
      refine ⟨?_, ?_, ?_, h4⟩
      · intro p hp
        obtain ⟨e1, he1, e2, he2, hh⟩ := h1 p hp
        exact ⟨e1, List.mem_append_left _ he1, e2, List.mem_append_left _ he2,
          hh⟩
      · intro p hsh hmem
        obtain ⟨e2, he2, hn, hd⟩ := h2 p hsh hmem
        exact ⟨e2, List.mem_append_left _ he2, hn, hd⟩
      · intro e2 he2
        rcases List.mem_append.mp he2 with hm | hm
        · rcases h3 e2 hm with hr | hlk
          · exact Or.inl hr
          · exact Or.inr hlk
        · have he2e : e2 = e := by simpa using hm
          subst he2e
          refine Or.inr ?_
          rw [hl, hne]
    · rw [gfStepP_some_ne hl hne]
      refine ⟨?_, ?_, ?_, ?_⟩
      · intro p hp
        rcases List.mem_append.mp hp with hm | hm
        · obtain ⟨e1, he1, e2, he2, hh⟩ := h1 p hm
          exact ⟨e1, List.mem_append_left _ he1, e2,
            List.mem_append_left _ he2, hh⟩
        · have hp2 : p = normPath e.filename := by simpa using hm
          subst hp2
          obtain ⟨e1, he1, hn1, hd1⟩ :=
            h2 (normPath e.filename) h0 (alookup_mem _ _ _ hl)
          exact ⟨e1, List.mem_append_left _ he1, e,
            List.mem_append_right _ (by simp), hn1, rfl,
            by rw [hd1]; exact hne⟩
      · intro p hsh hmem
        have hmem2 := (aerase_sublist st.index (normPath e.filename)).subset
          hmem
        obtain ⟨e2, he2, hn, hd⟩ := h2 p hsh hmem2
        exact ⟨e2, List.mem_append_left _ he2, hn, hd⟩
      · intro e2 he2
        rcases List.mem_append.mp he2 with hm | hm
        · rcases h3 e2 hm with hr | hlk
          · exact Or.inl (List.mem_append_left _ hr)
          · by_cases hp : normPath e2.filename = normPath e.filename
            · exact Or.inl (List.mem_append_right _ (by simp [hp]))
            · exact Or.inr (by rw [alookup_aerase_ne _ _ _ hp]; exact hlk)
        · have he2e : e2 = e := by simpa using hm
          subst he2e
          exact Or.inl (List.mem_append_right _ (by simp))
      · exact List.Nodup.sublist
          ((aerase_sublist st.index (normPath e.filename)).map Prod.fst) h4

/-- The whole loop preserves the invariant. -/
theorem gfInv_loop : ∀ (files seen : List FileInfo) (st : GFState),
    GFInv seen st → GFInv (seen ++ files) (gfLoopP files st) := by
  intro files
  induction files with
  | nil => intro seen st h; simpa [gfLoopP] using h
  | cons e es ih =>
    intro seen st h
    have h2 := gfInv_step seen st e h
    have h3 := ih (seen ++ [e]) (gfStepP st e) h2
    simpa [gfLoopP, List.append_assoc] using h3

/-- The effectful step agrees with the pure step when the body decodes. -/
theorem gfStep_ok (st : GFState) (e : FileInfo)
    (hd : (a2bBase64 e.base64Contents).isSome = true) :
    gfStep st e = .ok (gfStepP st e) := by
  cases ha : a2bBase64 e.base64Contents with
  | none => rw [ha] at hd; simp at hd
  | some d =>
    have hdg : dgst e = hexBytes (sha256 d) := by simp [dgst, ha]
    cases halk : alookup st.index (normPath e.filename) with
    | none =>
      rw [gfStepP_none halk]
      simp [gfStep, gfDigest, ha, bind, Except.bind, halk, hdg, pure,
        Except.pure]
    | some h0 =>
      by_cases hcc : h0 = dgst e
      · rw [gfStepP_some_eq halk hcc]
        have hcc2 : h0 = hexBytes (sha256 d) := hdg ▸ hcc
        simp [gfStep, gfDigest, ha, bind, Except.bind, halk, hcc2, pure,
          Except.pure]
      · rw [gfStepP_some_ne halk hcc]
        have hcc2 : h0 ≠ hexBytes (sha256 d) := hdg ▸ hcc
        simp [gfStep, gfDigest, ha, bind, Except.bind, halk, hcc2, pure,
          Except.pure]

/-- The effectful loop agrees with the pure loop when every body decodes. -/
theorem gfLoop_ok : ∀ (files : List FileInfo) (st : GFState),
    (∀ e ∈ files, (a2bBase64 e.base64Contents).isSome = true) →
    gfLoop files st = .ok (gfLoopP files st) := by
  intro files
  induction files with
  | nil => intro st _; rfl
  | cons e es ih =>
    intro st hd
    have h1 : gfStep st e = .ok (gfStepP st e) :=
      gfStep_ok st e (hd e (List.mem_cons_self _ _))
    simp only [gfLoop, gfLoopP, h1, bind, Except.bind]
    exact ih _ (fun x hx => hd x (List.mem_cons_of_mem _ hx))

/-- The model of `get_files_to_update` succeeds and returns `gfResult` when every body
decodes. -/
theorem getFilesToUpdate_ok (files : List FileInfo)
    (board : List (Bytes × Bytes))
    (hd : ∀ e ∈ files, (a2bBase64 e.base64Contents).isSome = true) :
    getFilesToUpdate files board = .ok (gfResult files board) := by
  simp only [getFilesToUpdate, gfLoop_ok files ⟨[], []⟩ hd, bind, Except.bind,
    gfResult, pure, Except.pure]

/-- Membership in the returned delta list, characterized: exactly the
normalized paths with an entry whose recomputed digest is not the board's
digest for that path (including paths absent from the board index). -/
theorem gfResult_mem (files : List FileInfo) (board : List (Bytes × Bytes))
    (p : Bytes) :
    p ∈ gfResult files board ↔
      ∃ e ∈ files, normPath e.filename = p ∧
        alookup board p ≠ some (dgst e) := by
  have hinv : GFInv files (gfLoopP files ⟨[], []⟩) := by
    have := gfInv_loop files [] ⟨[], []⟩ gfInv_init
    simpa using this
  obtain ⟨h1, h2, h3, h4⟩ := hinv
  unfold gfResult
  constructor
  · intro hp
    rcases List.mem_append.mp hp with hm | hm
    · obtain ⟨e1, he1, e2, he2, hn1, hn2, hd⟩ := h1 p hm
      by_cases hb : alookup board p = some (dgst e1)
      · refine ⟨e2, he2, hn2, ?_⟩
        rw [hb]
        intro hcon
        exact hd (Option.some.inj hcon)
      · exact ⟨e1, he1, hn1, hb⟩
    · rw [List.mem_map] at hm
      obtain ⟨⟨q, hq⟩, hmem, hfst⟩ := hm
      rw [List.mem_filter] at hmem
      obtain ⟨hidx, hcond⟩ := hmem
      rw [decide_eq_true_eq] at hcond
      obtain ⟨e2, he2, hn, hdg⟩ := h2 q hq hidx
      have hqp : q = p := hfst
      subst hqp
      refine ⟨e2, he2, hn, ?_⟩
      rw [hdg]
      exact hcond
  · rintro ⟨e, he, hn, hb⟩
    rcases h3 e he with hr | hlk
    · exact List.mem_append_left _ (hn ▸ hr)
    · refine List.mem_append_right _ ?_
      rw [List.mem_map]
      refine ⟨(p, dgst e), ?_, rfl⟩
      rw [List.mem_filter]
      rw [hn] at hlk
      exact ⟨alookup_mem _ _ _ hlk, by simp [hb]⟩

/-- C3: `get_files_to_update` returns exactly the normalized paths whose
recomputed digest differs from the board-side digest or which the board
index lacks; and on an unchanged board (every entry's digest already
matches), the delta is empty and `write_update_to_board` selects exactly
the `execute`-marked entries for transfer. -/
theorem delta_and_idempotence (files : List FileInfo)
    (board : List (Bytes × Bytes))
    (hd : ∀ e ∈ files, (a2bBase64 e.base64Contents).isSome = true) :
    getFilesToUpdate files board = .ok (gfResult files board) ∧
    (∀ p, p ∈ gfResult files board ↔
      ∃ e ∈ files, normPath e.filename = p ∧
        alookup board p ≠ some (dgst e)) ∧
    writeSelection files board =
      .ok ((files.map normEntry).filter fun e =>
        decide (e.filename ∈ gfResult files board) || e.metaExecute) ∧
    ((∀ e ∈ files, alookup board (normPath e.filename) = some (dgst e)) →
      gfResult files board = [] ∧
      writeSelection files board =
        .ok ((files.map normEntry).filter fun e => e.metaExecute)) := by
  refine ⟨getFilesToUpdate_ok files board hd,
    fun p => gfResult_mem files board p, ?_, ?_⟩
  · simp only [writeSelection, getFilesToUpdate_ok files board hd, bind,
      Except.bind, pure, Except.pure]
  intro hmatch
  have hnil : gfResult files board = [] := by
    rw [List.eq_nil_iff_forall_not_mem]
    intro p hp
    rw [gfResult_mem] at hp
    obtain ⟨e, he, hn, hb⟩ := hp
    exact hb (hn ▸ hmatch e he)
  refine ⟨hnil, ?_⟩
  simp only [writeSelection, getFilesToUpdate_ok files board hd, hnil, bind,
    Except.bind]
  simp
  rfl

/-- C3 witness: two concrete entries against a board index that already
matches them — the delta is empty and only the `execute` entry is selected. -/
theorem delta_and_idempotence_witness :
    (∀ e ∈ wEntries, (a2bBase64 e.base64Contents).isSome = true) ∧
    (getFilesToUpdate wEntries wBoard = .ok (gfResult wEntries wBoard) ∧
     (∀ p, p ∈ gfResult wEntries wBoard ↔
       ∃ e ∈ wEntries, normPath e.filename = p ∧
         alookup wBoard p ≠ some (dgst e)) ∧
     writeSelection wEntries wBoard =
       .ok ((wEntries.map normEntry).filter fun e =>
         decide (e.filename ∈ gfResult wEntries wBoard) || e.metaExecute) ∧
     ((∀ e ∈ wEntries, alookup wBoard (normPath e.filename) = some (dgst e)) →
       gfResult wEntries wBoard = [] ∧
       writeSelection wEntries wBoard =
         .ok ((wEntries.map normEntry).filter fun e => e.metaExecute))) :=
  ⟨by decide, delta_and_idempotence wEntries wBoard (by decide)⟩

/-! ## Path-shape lemmas -/

/-- Right-stripping yields a prefix. -/
theorem rstripP_prefix (pred : Nat → Bool) (l : Bytes) :
    rstripP pred l <+: l := by
  rw [← List.reverse_suffix, rstripP, List.reverse_reverse]
  exact List.dropWhile_suffix _

/-- Right-stripping a list with a non-satisfying element is non-empty. -/
theorem rstripP_ne_nil (pred : Nat → Bool) (l : Bytes)
    (h : ¬∀ b ∈ l, pred b = true) : rstripP pred l ≠ [] := by
  intro hcon
  apply h
  intro b hb
  have h2 : l.reverse.dropWhile pred = [] := by
    have := congrArg List.reverse hcon
    rwa [rstripP, List.reverse_reverse, List.reverse_nil] at this
  rw [List.dropWhile_eq_nil_iff] at h2
  exact h2 b (List.mem_reverse.mpr hb)

/-- A non-empty prefix has the same head. -/
theorem prefix_head_eq {l1 l2 : Bytes} (h : l1 <+: l2) (hne : l1 ≠ []) :
    l1.head? = l2.head? := by
  obtain ⟨t, rfl⟩ := h
  cases l1 with
  | nil => exact absurd rfl hne
  | cons a l => rfl

/-- Prefixes are preserved by `tail`. -/
theorem prefix_tail {l1 l2 : Bytes} (h : l1 <+: l2) : l1.tail <+: l2.tail := by
  obtain ⟨t, rfl⟩ := h
  cases l1 with
  | nil => simp
  | cons a l => exact ⟨t, rfl⟩

/-- The head of a `take` never differs from the list head. -/
theorem take_head_ne (t : Bytes) (i v : Nat) (h : t.head? ≠ some v) :
    (t.take i).head? ≠ some v := by
  cases i with
  | zero => simp
  | succ j =>
    cases t with
    | nil => simp
    | cons a l => simpa using h

/-- A byte list headed by `47` has a last index of `47`. -/
theorem lastIdxOf_cons_47 (t : Bytes) :
    lastIdxOf 47 (47 :: t) ≠ none := by
  simp only [lastIdxOf]
  split
  · simp
  · simp

/-- Normalization produces a good path from a relative path with no leading
slash and no backslash. -/
theorem goodPath_normPath (q : Bytes) (h1 : q.head? ≠ some 47)
    (h2 : 92 ∉ q) : goodPath (normPath q) := by
  unfold normPath
  rw [if_neg h1]
  exact ⟨rfl, by simpa using h1, by simp [h2]⟩

/-- Applying `posixpath.dirname` to a good path gives a good path whenever the transfer
script emits it (it is neither empty nor the bare root). -/
theorem goodPath_dirname (p : Bytes) (hg : goodPath p)
    (hne1 : pyDirname p ≠ []) (hne2 : pyDirname p ≠ [47]) :
    goodPath (pyDirname p) := by
  obtain ⟨hh, ht, hb⟩ := hg
  cases p with
  | nil => simp at hh
  | cons c t =>
    have hc : c = 47 := by simpa using hh
    subst hc
    have ht2 : t.head? ≠ some 47 := by simpa using ht
    unfold pyDirname at hne1 hne2 ⊢
    cases hli : lastIdxOf 47 (47 :: t) with
    | none => exact absurd hli (lastIdxOf_cons_47 t)
    | some i =>
      simp only [hli] at hne1 hne2 ⊢
      have hhd : (47 :: t).take (i + 1) = 47 :: t.take i := rfl
      by_cases hall : ((47 :: t).take (i + 1)).all (· == 47)
      · rw [if_pos hall] at hne1 hne2
        exfalso
        rcases htk : t.take i with _ | ⟨x, xs⟩
        · exact hne2 (by rw [hhd, htk])
        · have hx : x = 47 := by
            have h3 : (47 :: t.take i).all (· == 47) := hhd ▸ hall
            rw [htk] at h3
            simp only [List.all_cons, Bool.and_eq_true, beq_iff_eq] at h3
            exact h3.2.1
          apply take_head_ne t i 47 ht2
          rw [htk, hx]
          rfl
      · rw [if_neg hall] at hne1 hne2 ⊢
        have hpre : rstripP (· == 47) ((47 :: t).take (i + 1)) <+:
            (47 :: t).take (i + 1) := rstripP_prefix _ _
        have hnn : rstripP (· == 47) ((47 :: t).take (i + 1)) ≠ [] := by
          apply rstripP_ne_nil
          intro hcon
          exact hall (List.all_eq_true.mpr hcon)
        refine ⟨?_, ?_, ?_⟩
        · rw [prefix_head_eq hpre hnn, hhd]
          rfl
        · cases hrt : (rstripP (· == 47) ((47 :: t).take (i + 1))).tail with
          | nil => simp
          | cons z zs =>
            have hpt := prefix_tail hpre
            rw [hrt] at hpt
            have hz : (z :: zs).head? = ((47 :: t).take (i + 1)).tail.head? :=
              prefix_head_eq hpt (by simp)
            rw [hhd] at hz
            simp only [List.tail_cons] at hz
            intro hcon
            apply take_head_ne t i 47 ht2
            rw [← hz]
            simpa using hcon
        · intro hmem
          have hm2 := hpre.subset hmem
          have hm3 := List.take_subset (i + 1) (47 :: t) hm2
          rcases List.mem_cons.mp hm3 with hx | hx
          · simp at hx
          · exact hb (List.mem_cons_of_mem _ hx)

/-- C8: given entries whose relative paths have no leading slash and no
backslash, every path the transfer script emits (the `mdir` argument and the
common `open` / `hash_check` / `execute_file` path) and every path in the
delta list starts with exactly one `/` and contains no backslash. -/
theorem emitted_paths_normalized (files : List FileInfo)
    (board : List (Bytes × Bytes)) (e : FileInfo)
    (hp : ∀ f ∈ files, f.filename.head? ≠ some 47 ∧ 92 ∉ f.filename)
    (he : e ∈ files) :
    (∀ q ∈ emittedPathsOfFile e, goodPath q) ∧
    (∀ p ∈ gfResult files board, goodPath p) := by
  constructor
  · intro q hq
    simp only [emittedPathsOfFile] at hq
    rcases List.mem_append.mp hq with hm | hm
    · by_cases hcond : pyDirname (normPath e.filename) = [] ∨
        pyDirname (normPath e.filename) = [47]
      · rw [if_pos hcond] at hm
        simp at hm
      · rw [if_neg hcond] at hm
        have hqd : q = pyDirname (normPath e.filename) := by simpa using hm
        subst hqd
        push_neg at hcond
        exact goodPath_dirname _
          (goodPath_normPath _ (hp e he).1 (hp e he).2) hcond.1 hcond.2
    · have hqf : q = normPath e.filename := by simpa using hm
      subst hqf
      exact goodPath_normPath _ (hp e he).1 (hp e he).2
  · intro p hpmem
    rw [gfResult_mem] at hpmem
    obtain ⟨e2, he2, hn, _⟩ := hpmem
    rw [← hn]
    exact goodPath_normPath _ (hp e2 he2).1 (hp e2 he2).2

/-- C8 witness: the concrete entries `a` and `b` (no leading slash, no
backslash) against an empty board index. -/
theorem emitted_paths_normalized_witness :
    (∀ f ∈ wEntries, f.filename.head? ≠ some 47 ∧ 92 ∉ f.filename) ∧
    (⟨sb "a", false, [], []⟩ : FileInfo) ∈ wEntries ∧
    ((∀ q ∈ emittedPathsOfFile ⟨sb "a", false, [], []⟩, goodPath q) ∧
     (∀ p ∈ gfResult wEntries [], goodPath p)) :=
  ⟨by decide, by decide,
    emitted_paths_normalized wEntries [] ⟨sb "a", false, [], []⟩
      (by decide) (by decide)⟩

/-! ## Chunking -/

/-- Length of a newline-join: the line lengths plus one separator between
consecutive lines. -/
theorem pyJoinNl_length : ∀ b : List Bytes,
    (pyJoinNl b).length = sumLens b + (b.length - 1)
  | [] => by simp [pyJoinNl, sumLens]
  | [l] => by simp [pyJoinNl, sumLens]
  | l :: l2 :: rest => by
    have ih := pyJoinNl_length (l2 :: rest)
    simp only [pyJoinNl, sumLens, List.map_cons, List.sum_cons,
      List.length_cons, List.length_append] at ih ⊢
    omega

/-- The chunking loop invariant: every emitted block either keeps the
tracked sum of line lengths within the limit or consists of a single
(possibly oversized) line. -/
theorem chunkBlocks_inv : ∀ (lines cur : List Bytes) (n : Nat),
    n = sumLens cur → (sumLens cur ≤ commandChunkSize ∨ cur.length = 1) →
    ∀ b ∈ chunkBlocks lines cur n,
      sumLens b ≤ commandChunkSize ∨ b.length = 1 := by
  intro lines
  induction lines with
  | nil =>
    intro cur n hn hc b hb
    simp only [chunkBlocks] at hb
    split at hb
    · simp at hb
    · have hbc : b = cur := by simpa using hb
      subst hbc
      exact hc
  | cons line rest ih =>
    intro cur n hn hc b hb
    simp only [chunkBlocks] at hb
    split at hb
    · rcases List.mem_cons.mp hb with hbc | hbm
      · subst hbc
        exact hc
      · exact ih [line] line.length (by simp [sumLens]) (Or.inr rfl) b hbm
    · rename_i hle
      refine ih (cur ++ [line]) (n + line.length) ?_ ?_ b hb
      · simp [sumLens, hn]
      · left
        have : sumLens (cur ++ [line]) = n + line.length := by
          simp [sumLens, hn]
        omega

/-- C5 (amended): every script block `write_update_to_board` submits either
is a single generated line or has line lengths summing to at most
`COMMAND_CHUNK_SIZE`; the submitted byte string is the newline-join, which
additionally carries one separator byte per extra line — so it is the sum
plus `lines − 1`, and only the sum (not the join) is kept under 5000. -/
theorem chunk_blocks_bound (files : List FileInfo)
    (board : List (Bytes × Bytes)) (bs : List (List Bytes))
    (h : writeBlocks files board = .ok bs) :
    ∀ b ∈ bs, (blockScript b).length = sumLens b + (b.length - 1) ∧
      (sumLens b ≤ commandChunkSize ∨ b.length = 1) := by
  simp only [writeBlocks, bind, Except.bind] at h
  split at h
  · exact absurd h (by simp)
  · rename_i sel hsel
    split at h
    · exact absurd h (by simp)
    · rename_i lines hlines
      have hbs : bs = sentBlocks lines := (Except.ok.inj h).symm
      subst hbs
      intro b hb
      refine ⟨pyJoinNl_length b, ?_⟩
      refine chunkBlocks_inv lines [] 0 (by simp [sumLens]) ?_ b hb
      left
      simp [sumLens, commandChunkSize]

set_option maxRecDepth 40000 in
/-- C5 witness: the empty update transfers only the joined preamble. -/
theorem chunk_blocks_bound_witness :
    writeBlocks ([] : List FileInfo) [] =
      .ok (sentBlocks [pyJoinNl setupLines]) ∧
    ∀ b ∈ sentBlocks [pyJoinNl setupLines],
      (blockScript b).length = sumLens b + (b.length - 1) ∧
      (sumLens b ≤ commandChunkSize ∨ b.length = 1) :=
  ⟨rfl, chunk_blocks_bound [] [] (sentBlocks [pyJoinNl setupLines]) rfl⟩

set_option maxRecDepth 40000 in
/-- C5 counterexample: sixty tiny entries produce a flushed block whose
newline-join exceeds `COMMAND_CHUNK_SIZE = 5000` bytes, because
`current_len` does not count the joining newlines (the second conjunct
converts the sum-plus-separators count into the joined byte length). -/
theorem chunk_blocks_counterexample :
    ((writeBlocks cexFiles []).map
      (fun bs => bs.any fun b =>
        decide (commandChunkSize < sumLens b + (b.length - 1)))) = .ok true ∧
    (∀ b : List Bytes, (blockScript b).length = sumLens b + (b.length - 1)) :=
  ⟨by decide, pyJoinNl_length⟩

end TrenchCoat
